import Mathlib

/-!
Verification development for the DupliFind-Analyzer duplicate-detection engine
(src/duplicateLogic.ts).  The engine's data model and operations are shallowly
embedded below: the Babel syntax tree becomes an inductive type, the external
collaborators (parser, generator, digest, similarity metric) become explicit
Lean functions, and the three finders become pure functions returning
`Except`, with a thrown JavaScript exception modeled as `Except.error`.
-/

namespace DupliFind

/-- Shallow embedding of the Babel-style syntax-tree values that
`duplicateLogic.ts` traverses.  Nodes carry a `type` tag and child fields;
JavaScript child arrays are embedded as `jcons`/`jnil` spines (the generic
`Object.keys` descent of the source visits an array object and then its
elements in index order, which is exactly the spine order).  `jnull` is the
absent child (`null`).  `quasi` is a `TemplateElement` (its `value.raw` /
`value.cooked` strings).  `templateBad` is a `TemplateLiteral` whose `quasis`
field is a truthy array-like object without a `forEach` method: the
canonicalizer's `n.quasis.forEach` throws on it (caught by the per-node
`catch`), while the generator still renders it by index like a normal
template.  Source-location fields (`loc`, `start`, `end`) are not modeled:
they contain no nodes and no traversal in the source reads them. -/
inductive JNode where
  | jnull
  | jnil
  | jcons (hd tl : JNode)
  | ident (name : String)
  | strLit (value : String)
  | numLit (value : Int)
  | quasi (raw cooked : String)
  | template (quasis exprs : JNode)
  | templateBad (quasis exprs : JNode)
  | binop (op : String) (l r : JNode)
  | call (callee args : JNode)
  | ret (arg : JNode)
  | ifStmt (test conseq alt : JNode)
  | funcDecl (id params body : JNode)
  | funcExpr (params body : JNode)
  | arrow (params body : JNode)
  | block (body : JNode)
  | program (body : JNode)
  | exprStmt (e : JNode)
deriving DecidableEq, Repr

/-- Computable size of a tree, used to pre-compute sufficient renderer
fuel. -/
def jsize : JNode → Nat
  | .jnull => 1
  | .jnil => 1
  | .jcons h t => jsize h + jsize t + 1
  | .ident _ => 1
  | .strLit _ => 1
  | .numLit _ => 1
  | .quasi _ _ => 1
  | .template qs es => jsize qs + jsize es + 1
  | .templateBad qs es => jsize qs + jsize es + 1
  | .binop _ l r => jsize l + jsize r + 1
  | .call c as => jsize c + jsize as + 1
  | .ret a => jsize a + 1
  | .ifStmt t c a => jsize t + jsize c + jsize a + 1
  | .funcDecl i ps b => jsize i + jsize ps + jsize b + 1
  | .funcExpr ps b => jsize ps + jsize b + 1
  | .arrow ps b => jsize ps + jsize b + 1
  | .block ss => jsize ss + 1
  | .program ss => jsize ss + 1
  | .exprStmt e => jsize e + 1

/-- Fueled core of the renderer.  Mode `0` renders one node, mode `1` a
comma-separated parameter/argument list, mode `2` a statement list, mode `3`
the quasi/expression interleaving of a template literal (the generator
prints quasi `i`, and prints expression `i` only while a further quasi
follows).  The fuel only bounds the recursion depth — structural recursion
on it keeps every equation definitional so that concrete runs evaluate in
the kernel; every recursive call strictly decreases the combined size of the
two tree arguments, so the wrappers below always supply enough fuel. -/
def genAux : Nat → Nat → JNode → JNode → String
  | 0, _, _, _ => ""
  | fuel + 1, 0, n, _ =>
    match n with
    | .jnull => ""
    | .jnil => ""
    | .jcons h t => genAux fuel 0 h .jnull ++ genAux fuel 0 t .jnull
    | .ident nm => nm
    | .strLit v => "\x22" ++ v ++ "\x22"
    | .numLit v => toString v
    | .quasi raw _ => raw
    | .template qs es => "`" ++ genAux fuel 3 qs es ++ "`"
    | .templateBad qs es => "`" ++ genAux fuel 3 qs es ++ "`"
    | .binop op l r => genAux fuel 0 l .jnull ++ op ++ genAux fuel 0 r .jnull
    | .call c as => genAux fuel 0 c .jnull ++ "(" ++ genAux fuel 1 as .jnull ++ ")"
    | .ret .jnull => "return;"
    | .ret a => "return " ++ genAux fuel 0 a .jnull ++ ";"
    | .ifStmt t c .jnull => "if(" ++ genAux fuel 0 t .jnull ++ ")" ++ genAux fuel 0 c .jnull
    | .ifStmt t c a =>
        "if(" ++ genAux fuel 0 t .jnull ++ ")" ++ genAux fuel 0 c .jnull ++ "else " ++
          genAux fuel 0 a .jnull
    | .funcDecl i ps b =>
        "function " ++ genAux fuel 0 i .jnull ++ "(" ++ genAux fuel 1 ps .jnull ++ ")" ++
          genAux fuel 0 b .jnull
    | .funcExpr ps b => "function(" ++ genAux fuel 1 ps .jnull ++ ")" ++ genAux fuel 0 b .jnull
    | .arrow ps b => "(" ++ genAux fuel 1 ps .jnull ++ ")=>" ++ genAux fuel 0 b .jnull
    | .block ss => "\x7b" ++ genAux fuel 2 ss .jnull ++ "\x7d"
    | .program ss => genAux fuel 2 ss .jnull
    | .exprStmt e => genAux fuel 0 e .jnull ++ ";"
  | fuel + 1, 1, n, _ =>
    match n with
    | .jcons h .jnil => genAux fuel 0 h .jnull
    | .jcons h t => genAux fuel 0 h .jnull ++ "," ++ genAux fuel 1 t .jnull
    | _ => ""
  | fuel + 1, 2, n, _ =>
    match n with
    | .jcons h t => genAux fuel 0 h .jnull ++ genAux fuel 2 t .jnull
    | _ => ""
  | fuel + 1, _, qs, es =>
    match qs, es with
    | .jcons q .jnil, _ => genAux fuel 0 q .jnull
    | .jcons q qt, .jcons e et =>
        genAux fuel 0 q .jnull ++ "$\x7b" ++ genAux fuel 0 e .jnull ++ "\x7d" ++
          genAux fuel 3 qt et
    | .jcons q qt, es2 => genAux fuel 0 q .jnull ++ genAux fuel 3 qt es2
    | _, _ => ""

/-- Models `generate(node, { comments: false }).code` from `@babel/generator`:
a deterministic rendering of a subtree back to source text.  The exact
concrete syntax is a fixed convention (compact, comment-free); all the engine
needs from the generator is that it is a function of the tree.  The starting
fuel exceeds the measure `jsize n + jsize jnull` that every recursive call
of `genAux` strictly decreases, so the bound is never hit. -/
def genNode (n : JNode) : String := genAux (jsize n + 2) 0 n .jnull

/-- The function-like node test of `extractFunctions` (lines 18-22 of the
source): `FunctionDeclaration`, `FunctionExpression` or
`ArrowFunctionExpression`. -/
def isFunctionNode : JNode → Bool
  | .funcDecl _ _ _ => true
  | .funcExpr _ _ => true
  | .arrow _ _ => true
  | _ => false

/-- `nodeToString` from the source: render a node with comments stripped. -/
def nodeToString (node : JNode) : String := genNode node

/-- `extractFunctions` from the source, on well-formed (finite, acyclic)
trees: push the rendered text of every function-like node, then keep
descending into all object-valued children in field order (the source pushes
first and then recurses, so an outer function precedes its nested
functions). -/
def extractFunctions : JNode → List String
  | .jnull => []
  | .jnil => []
  | .jcons h t => extractFunctions h ++ extractFunctions t
  | .ident _ => []
  | .strLit _ => []
  | .numLit _ => []
  | .quasi _ _ => []
  | .template qs es => extractFunctions qs ++ extractFunctions es
  | .templateBad qs es => extractFunctions qs ++ extractFunctions es
  | .binop _ l r => extractFunctions l ++ extractFunctions r
  | .call c as => extractFunctions c ++ extractFunctions as
  | .ret a => extractFunctions a
  | .ifStmt t c a => extractFunctions t ++ extractFunctions c ++ extractFunctions a
  | .funcDecl i ps b =>
      nodeToString (.funcDecl i ps b) :: (extractFunctions i ++ extractFunctions ps ++ extractFunctions b)
  | .funcExpr ps b =>
      nodeToString (.funcExpr ps b) :: (extractFunctions ps ++ extractFunctions b)
  | .arrow ps b =>
      nodeToString (.arrow ps b) :: (extractFunctions ps ++ extractFunctions b)
  | .block ss => extractFunctions ss
  | .program ss => extractFunctions ss
  | .exprStmt e => extractFunctions e

mutual

/-- The inner `traverse` of `normalizeAST`.  The source applies a per-type
rule (identifier names and `Literal`/`StringLiteral` values become
`"placeholder"`, template quasis are overwritten, a few connectors recurse
explicitly) and afterwards generically descends into every object child; the
generic descent makes each rule reach every node exactly as one full
recursive pass does (re-normalizing an already normalized subtree is the
identity), which is how it is written here.  `NumericLiteral` — the tag the
Babel parser actually produces for numbers — matches neither `"Literal"` nor
`"StringLiteral"`, so numeric values are left intact.  On `templateBad` the
source throws at `n.quasis.forEach` before reaching the expressions or the
generic descent; the per-node `catch` swallows the error, so the whole
subtree is returned untouched. -/
def normTraverse : JNode → JNode
  | .jnull => .jnull
  | .jnil => .jnil
  | .jcons h t => .jcons (normTraverse h) (normTraverse t)
  | .ident _ => .ident "placeholder"
  | .strLit _ => .strLit "placeholder"
  | .numLit v => .numLit v
  | .quasi r c => .quasi r c
  | .template qs es => .template (normQuasis qs) (normTraverse es)
  | .templateBad qs es => .templateBad qs es
  | .binop op l r => .binop op (normTraverse l) (normTraverse r)
  | .call c as => .call (normTraverse c) (normTraverse as)
  | .ret a => .ret (normTraverse a)
  | .ifStmt t c a => .ifStmt (normTraverse t) (normTraverse c) (normTraverse a)
  | .funcDecl i ps b => .funcDecl (normTraverse i) (normTraverse ps) (normTraverse b)
  | .funcExpr ps b => .funcExpr (normTraverse ps) (normTraverse b)
  | .arrow ps b => .arrow (normTraverse ps) (normTraverse b)
  | .block ss => .block (normTraverse ss)
  | .program ss => .program (normTraverse ss)
  | .exprStmt e => .exprStmt (normTraverse e)

/-- The quasi-mutation loop of the canonicalizer's `TemplateLiteral` case,
fused with the generic descent that re-visits the `quasis` array afterwards:
each `TemplateElement`'s `value.raw`/`value.cooked` becomes `"placeholder"`
(the later generic visit of a `TemplateElement` touches nothing further),
any other array entry is reached by the generic descent only, and a
non-array value in the `quasis` position is simply traversed (the cases
below non-`jcons` spell out that plain traversal constructor by
constructor). -/
def normQuasis : JNode → JNode
  | .jcons (.quasi _ _) t => .jcons (.quasi "placeholder" "placeholder") (normQuasis t)
  | .jcons h t => .jcons (normTraverse h) (normQuasis t)
  | .jnull => .jnull
  | .jnil => .jnil
  | .ident _ => .ident "placeholder"
  | .strLit _ => .strLit "placeholder"
  | .numLit v => .numLit v
  | .quasi r c => .quasi r c
  | .template qs es => .template (normQuasis qs) (normTraverse es)
  | .templateBad qs es => .templateBad qs es
  | .binop op l r => .binop op (normTraverse l) (normTraverse r)
  | .call c as => .call (normTraverse c) (normTraverse as)
  | .ret a => .ret (normTraverse a)
  | .ifStmt t c a => .ifStmt (normTraverse t) (normTraverse c) (normTraverse a)
  | .funcDecl i ps b => .funcDecl (normTraverse i) (normTraverse ps) (normTraverse b)
  | .funcExpr ps b => .funcExpr (normTraverse ps) (normTraverse b)
  | .arrow ps b => .arrow (normTraverse ps) (normTraverse b)
  | .block ss => .block (normTraverse ss)
  | .program ss => .program (normTraverse ss)
  | .exprStmt e => .exprStmt (normTraverse e)

end

/-- `normalizeAST` from the source: deep-clone the node (pure model: the
value itself), run the mutating traversal, render the result.  The outer
`catch` returns `""` when the clone or the render throws; in the tree model
both are total, so that branch is unreachable here (the store-level model
below covers the cyclic-clone failure). -/
def normalizeAST (node : JNode) : String := genNode (normTraverse node)

/-- Models `crypto.createHash("sha256").update(content).digest("hex")`: a
deterministic digest used by the engine only as an opaque grouping key.  It
is modeled as the identity injection — deterministic, and collision-free on
the inputs of interest, matching the spec's stance that hash equality is the
sole grouping key. -/
def hashCode (content : String) : String := content

/-- The external parser collaborator: `parse(text, {sourceType: "module",
plugins: ["typescript", "jsx"]})`, which returns a tree or throws a
`ParseError`. -/
abbrev Parser := String → Except String JNode

/-- A concrete parser built from a finite table, used to instantiate runs:
texts in the table parse to their tree, all other texts throw. -/
def lookupTbl (tbl : List (String × JNode)) : Parser := fun s =>
  match tbl.find? (fun p => p.1 = s) with
  | some p => .ok p.2
  | none => .error "ParseError"

/-- Models JavaScript `String.prototype.trim()` on the ASCII inputs of
interest: drop leading and trailing whitespace.  (Defined over the character
list so that concrete runs evaluate in the kernel.) -/
def jsTrim (s : String) : String :=
  ⟨((s.data.dropWhile Char.isWhitespace).reverse.dropWhile Char.isWhitespace).reverse⟩

/-- One value of the `hashes` accumulator of `findExactDuplicates`. -/
structure ExactEntry where
  code : String
  files : List String
deriving DecidableEq, Repr

/-- One element of the list returned by `findExactDuplicates`. -/
structure ExactGroup where
  function : String
  files : List String
deriving DecidableEq, Repr

/-- The body of the inner `forEach` of `findExactDuplicates`: create the
entry for a fresh hash, then record the file unless it is already present
(`!hashes[hash].files.includes(file)`). -/
def exactInsert (hashes : List (String × ExactEntry)) (file funcCode : String) :
    List (String × ExactEntry) :=
  let hash := hashCode funcCode
  match hashes.find? (fun p => p.1 = hash) with
  | none => hashes ++ [(hash, ⟨funcCode, [file]⟩)]
  | some _ =>
      hashes.map (fun p =>
        if p.1 = hash then
          (p.1, if file ∈ p.2.files then p.2 else ⟨p.2.code, p.2.files ++ [file]⟩)
        else p)

/-- Processing of one file by `findExactDuplicates`: parse (a `ParseError`
propagates — there is no try/catch in this function), extract, and fold each
trimmed function text into the hash map. -/
def exactFile (parse : Parser) (fileMap : String → String)
    (hashes : List (String × ExactEntry)) (file : String) :
    Except String (List (String × ExactEntry)) := do
  let ast ← parse (fileMap file)
  pure ((extractFunctions ast).foldl (fun acc func => exactInsert acc file (jsTrim func)) hashes)

/-- `findExactDuplicates` from the source: accumulate hash groups over all
files, keep the entries with more than one recorded file
(`Object.values(hashes).filter(e => e.files.length > 1)`). -/
def findExactDuplicates (parse : Parser) (files : List String)
    (fileMap : String → String) : Except String (List ExactGroup) :=
  (files.foldlM (exactFile parse fileMap) []).map (fun hashes =>
    ((hashes.map Prod.snd).filter (fun e => 1 < e.files.length)).map
      (fun e => ⟨e.code, e.files⟩))

/-- The whitespace stripping performed by the similarity metric
(`first.replace(/\s+/g, "")`); the inputs of interest are ASCII, where
`Char.isWhitespace` and `\s` agree. -/
def stripWs (s : String) : String := ⟨s.data.filter (fun c => !c.isWhitespace)⟩

/-- Consecutive character bigrams of a string, as built by the
`string-similarity` package's bigram map. -/
def bigrams : List Char → List (Char × Char)
  | a :: b :: rest => (a, b) :: bigrams (b :: rest)
  | _ => []

/-- Multiset intersection size of two bigram lists: for each bigram of the
second string in order, consume one matching occurrence from the first
string's bigram multiset if one remains, mirroring the count map of
`compareTwoStrings`. -/
def interCount : List (Char × Char) → List (Char × Char) → Nat
  | _, [] => 0
  | fb, b :: rest => if b ∈ fb then interCount (fb.erase b) rest + 1 else interCount fb rest

/-- Models `compareTwoStrings` from the `string-similarity` package (Dice
coefficient on character bigrams), computed in exact rational arithmetic:
strip whitespace; identical strings (including both empty) score 1; a string
shorter than two characters scores 0; otherwise the rational
`2·intersection / (len₁ + len₂ − 2)`, built with `mkRat` (which is exactly
that quotient, and keeps the value kernel-computable). -/
def compareTwoStrings (a b : String) : ℚ :=
  let f := stripWs a
  let s := stripWs b
  if f = s then 1
  else if f.length < 2 ∨ s.length < 2 then 0
  else mkRat (2 * interCount (bigrams f.data) (bigrams s.data)) (f.length + s.length - 2)

/-- Equality of `Except` results is decidable (needed to evaluate concrete
runs inside proofs). -/
instance {ε α : Type} [DecidableEq ε] [DecidableEq α] : DecidableEq (Except ε α) := fun a b =>
  match a, b with
  | .error e, .error f =>
      if h : e = f then .isTrue (by rw [h]) else .isFalse (fun hc => h (Except.error.inj hc))
  | .ok x, .ok y =>
      if h : x = y then .isTrue (by rw [h]) else .isFalse (fun hc => h (Except.ok.inj hc))
  | .error _, .ok _ => .isFalse (fun hc => Except.noConfusion hc)
  | .ok _, .error _ => .isFalse (fun hc => Except.noConfusion hc)

/-- One element of the flat `functions` list of `findNearDuplicates`. -/
structure FnOcc where
  code : String
  file : String
deriving DecidableEq, Repr

/-- Extraction step of `findNearDuplicates` for one file: parse (unguarded —
a `ParseError` propagates), extract, append the trimmed codes tagged with the
file. -/
def nearExtract (parse : Parser) (fileMap : String → String)
    (acc : List FnOcc) (file : String) : Except String (List FnOcc) := do
  let ast ← parse (fileMap file)
  pure (acc ++ (extractFunctions ast).map (fun func => ⟨jsTrim func, file⟩))

/-- One insertion into the size-bucket map (`Map<number, ...>`): the key is
`Math.floor(code.length / 100)`; a fresh key is appended (JavaScript `Map`
iterates in insertion order), an existing bucket is extended at the end. -/
def bucketInsert (grouped : List (Nat × List FnOcc)) (func : FnOcc) :
    List (Nat × List FnOcc) :=
  let bucket := func.code.length / 100
  match grouped.find? (fun p => p.1 = bucket) with
  | none => grouped ++ [(bucket, [func])]
  | some _ => grouped.map (fun p => if p.1 = bucket then (p.1, p.2 ++ [func]) else p)

/-- `groupFunctionsBySize` from the source. -/
def groupFunctionsBySize (functions : List FnOcc) : List (Nat × List FnOcc) :=
  functions.foldl bucketInsert []

/-- One entry of a result's `matches` array in `findNearDuplicates`. -/
structure NearMatch where
  function : String
  similarity : ℚ
  files : List String
deriving DecidableEq, Repr

/-- One element of the `results` array of `findNearDuplicates`. -/
structure NearRes where
  function : String
  file : String
  «matches» : List NearMatch
deriving DecidableEq, Repr

/-- Lexicographic comparison of strings by code unit, as JavaScript's
default `Array.prototype.sort` comparator orders strings.  (Defined over
character lists with `Nat` comparison so that it evaluates in the
kernel.) -/
def strLtAux : List Char → List Char → Bool
  | [], [] => false
  | [], _ :: _ => true
  | _ :: _, [] => false
  | x :: xs, y :: ys =>
      if x.toNat < y.toNat then true
      else if y.toNat < x.toNat then false
      else strLtAux xs ys

/-- String comparison entry point for the sort of `pairKey`. -/
def strLt (a b : String) : Bool := strLtAux a.data b.data

/-- Models `[f1, f2].sort().join(":")`: the lexicographically smaller file
identifier first. -/
def sortJoin (f1 f2 : String) : String :=
  if strLt f2 f1 then f2 ++ ":" ++ f1 else f1 ++ ":" ++ f2

/-- The canonical dedup key of `findNearDuplicates`:
`[group[i].file, group[j].file].sort().join(":") + ":" + group[i].code`. -/
def pairKey (f1 f2 code : String) : String := sortJoin f1 f2 ++ ":" ++ code

/-- The inner `j` loop of `findNearDuplicates` at anchor index `i`: skip
`j = i`; score the pair; when the score reaches the threshold and the
canonical key is unseen, emit the match and record the key.  Returns the
matches in `j` order together with the updated `seenPairs` set. -/
def innerLoop (g : List FnOcc) (i : Nat) (threshold : ℚ) :
    List Nat → List String → List NearMatch × List String
  | [], seen => ([], seen)
  | j :: js, seen =>
    if i = j then innerLoop g i threshold js seen
    else
      let gi := g.getD i ⟨"", ""⟩
      let gj := g.getD j ⟨"", ""⟩
      let sim := compareTwoStrings gi.code gj.code
      if threshold ≤ sim then
        let key := pairKey gi.file gj.file gi.code
        if key ∈ seen then innerLoop g i threshold js seen
        else
          let rest := innerLoop g i threshold js (key :: seen)
          (⟨gj.code, sim, [gj.file]⟩ :: rest.1, rest.2)
      else innerLoop g i threshold js seen

/-- The outer `i` loop of `findNearDuplicates` over one size bucket: run the
inner loop for each anchor, push a result only when it produced at least one
match, and thread the `seenPairs` set through. -/
def outerLoop (g : List FnOcc) (threshold : ℚ) :
    List Nat → List String → List NearRes × List String
  | [], seen => ([], seen)
  | i :: idxs, seen =>
    let inner := innerLoop g i threshold (List.range g.length) seen
    let rest := outerLoop g threshold idxs inner.2
    if inner.1.isEmpty then rest
    else
      let gi := g.getD i ⟨"", ""⟩
      (⟨gi.code, gi.file, inner.1⟩ :: rest.1, rest.2)

/-- Processing of one size bucket: run the outer loop over the bucket's
indices with the incoming `seenPairs` set, appending its results. -/
def bucketStep (threshold : ℚ) (acc : List NearRes × List String)
    (p : Nat × List FnOcc) : List NearRes × List String :=
  let res := outerLoop p.2 threshold (List.range p.2.length) acc.2
  (acc.1 ++ res.1, res.2)

/-- `findNearDuplicates` from the source (the `async` wrapper is immaterial:
the body never awaits).  The source's default threshold is `0.8`.
`seenPairs` is shared across all buckets; results are accumulated in bucket
insertion order. -/
def findNearDuplicates (parse : Parser) (files : List String)
    (fileMap : String → String) (threshold : ℚ) : Except String (List NearRes) := do
  let functions ← files.foldlM (nearExtract parse fileMap) []
  let grouped := groupFunctionsBySize functions
  let final := grouped.foldl (bucketStep threshold) ([], [])
  pure final.1

/-- One original occurrence recorded by `findStructuralDuplicates`. -/
structure OrigFn where
  file : String
  function : String
deriving DecidableEq, Repr

/-- One value of the `normalizedHashes` accumulator — and, after filtering,
one element of the list returned by `findStructuralDuplicates`. -/
structure StructGroup where
  normalizedFunction : String
  originalFunctions : List OrigFn
deriving DecidableEq, Repr

/-- Insertion into `normalizedHashes`: a fresh hash key gets an entry whose
representative text is this occurrence's canonical form; every occurrence is
pushed onto its entry's `originalFunctions` (no per-file dedup here, unlike
the exact finder). -/
def structInsert (acc : List (String × StructGroup))
    (normalizedCode file originalFunction : String) : List (String × StructGroup) :=
  let hash := hashCode normalizedCode
  match acc.find? (fun p => p.1 = hash) with
  | none => acc ++ [(hash, ⟨normalizedCode, [⟨file, originalFunction⟩]⟩)]
  | some _ =>
      acc.map (fun p =>
        if p.1 = hash then
          (p.1, ⟨p.2.normalizedFunction, p.2.originalFunctions ++ [⟨file, originalFunction⟩]⟩)
        else p)

/-- Per-function body of `findStructuralDuplicates`: re-parse the rendered
text inside the try/catch (a parse failure is logged and the function
skipped), normalize, skip when the canonical text is empty
(`if (!normalizedCode)`), otherwise insert under its hash. -/
def structFunc (parse : Parser) (file : String)
    (acc : List (String × StructGroup)) (originalFunction : String) :
    List (String × StructGroup) :=
  match parse originalFunction with
  | .error _ => acc
  | .ok ast =>
      let normalizedCode := normalizeAST ast
      if normalizedCode = "" then acc
      else structInsert acc normalizedCode file originalFunction

/-- Per-file body of `findStructuralDuplicates`: the file-level parse is not
guarded by any try/catch, so its `ParseError` propagates. -/
def structFile (parse : Parser) (fileMap : String → String)
    (acc : List (String × StructGroup)) (file : String) :
    Except String (List (String × StructGroup)) := do
  let ast ← parse (fileMap file)
  pure ((extractFunctions ast).foldl (structFunc parse file) acc)

/-- `findStructuralDuplicates` from the source: accumulate, then keep the
entries with more than one recorded occurrence. -/
def findStructuralDuplicates (parse : Parser) (files : List String)
    (fileMap : String → String) : Except String (List StructGroup) :=
  (files.foldlM (structFile parse fileMap) []).map (fun m =>
    (m.map Prod.snd).filter (fun e => 1 < e.originalFunctions.length))

/-- Modelled from the spec (§4.7), as the refinement reference for the
grouping claims: one step of collecting the flat list of contributing
occurrences — a successfully re-parsed and canonicalized extracted function
is appended as a pair of its canonical text and its `(file, originalCode)`
record; a failing one contributes nothing. -/
def structOccStep (parse : Parser) (file : String)
    (acc : List (String × OrigFn)) (orig : String) : List (String × OrigFn) :=
  match parse orig with
  | .error _ => acc
  | .ok past =>
      let c := normalizeAST past
      if c = "" then acc else acc ++ [(c, ⟨file, orig⟩)]

/-- Modelled from the spec (§4.7): contributions of one file. -/
def structOccFile (parse : Parser) (fileMap : String → String)
    (acc : List (String × OrigFn)) (file : String) :
    Except String (List (String × OrigFn)) := do
  let ast ← parse (fileMap file)
  pure ((extractFunctions ast).foldl (structOccStep parse file) acc)

/-- Modelled from the spec (§4.7): the flat list of contributing occurrences
of a whole run — every successfully re-parsed and canonicalized extracted
function, in processing order.  `findStructuralDuplicates` is compared
against this list. -/
def structOccurrencesSpec (parse : Parser) (files : List String)
    (fileMap : String → String) : Except String (List (String × OrigFn)) :=
  files.foldlM (structOccFile parse fileMap) []

mutual

/-- A simultaneous consistent identifier renaming (`ρ` on every identifier
name), string-literal value substitution (`σ` on every `StringLiteral`
value), and template-literal value substitution (`θ` on the
`raw`/`cooked` strings of every template's quasis) — the notion of
"differs only by renaming and literal substitution while keeping the same
structural shape".  Numeric literal values are deliberately not part of this
relation: the canonicalizer leaves `NumericLiteral` values intact.  The
malformed `templateBad` marker is excluded from substitution, since the
canonicalizer leaves such subtrees untouched. -/
def reshape (ρ σ θ : String → String) : JNode → JNode
  | .jnull => .jnull
  | .jnil => .jnil
  | .jcons h t => .jcons (reshape ρ σ θ h) (reshape ρ σ θ t)
  | .ident n => .ident (ρ n)
  | .strLit v => .strLit (σ v)
  | .numLit v => .numLit v
  | .quasi r c => .quasi r c
  | .template qs es => .template (reshapeQuasis ρ σ θ qs) (reshape ρ σ θ es)
  | .templateBad qs es => .templateBad qs es
  | .binop op l r => .binop op (reshape ρ σ θ l) (reshape ρ σ θ r)
  | .call c as => .call (reshape ρ σ θ c) (reshape ρ σ θ as)
  | .ret a => .ret (reshape ρ σ θ a)
  | .ifStmt t c a => .ifStmt (reshape ρ σ θ t) (reshape ρ σ θ c) (reshape ρ σ θ a)
  | .funcDecl i ps b => .funcDecl (reshape ρ σ θ i) (reshape ρ σ θ ps) (reshape ρ σ θ b)
  | .funcExpr ps b => .funcExpr (reshape ρ σ θ ps) (reshape ρ σ θ b)
  | .arrow ps b => .arrow (reshape ρ σ θ ps) (reshape ρ σ θ b)
  | .block ss => .block (reshape ρ σ θ ss)
  | .program ss => .program (reshape ρ σ θ ss)
  | .exprStmt e => .exprStmt (reshape ρ σ θ e)

/-- Quasi-list part of `reshape`: `θ` on the string values of the template's
elements, `reshape` on anything else in the array; on a non-array value the
two transformations agree (the cases below non-`jcons` restate `reshape`
constructor by constructor). -/
def reshapeQuasis (ρ σ θ : String → String) : JNode → JNode
  | .jcons (.quasi r c) t => .jcons (.quasi (θ r) (θ c)) (reshapeQuasis ρ σ θ t)
  | .jcons h t => .jcons (reshape ρ σ θ h) (reshapeQuasis ρ σ θ t)
  | .jnull => .jnull
  | .jnil => .jnil
  | .ident n => .ident (ρ n)
  | .strLit v => .strLit (σ v)
  | .numLit v => .numLit v
  | .quasi r c => .quasi r c
  | .template qs es => .template (reshapeQuasis ρ σ θ qs) (reshape ρ σ θ es)
  | .templateBad qs es => .templateBad qs es
  | .binop op l r => .binop op (reshape ρ σ θ l) (reshape ρ σ θ r)
  | .call c as => .call (reshape ρ σ θ c) (reshape ρ σ θ as)
  | .ret a => .ret (reshape ρ σ θ a)
  | .ifStmt t c a => .ifStmt (reshape ρ σ θ t) (reshape ρ σ θ c) (reshape ρ σ θ a)
  | .funcDecl i ps b => .funcDecl (reshape ρ σ θ i) (reshape ρ σ θ ps) (reshape ρ σ θ b)
  | .funcExpr ps b => .funcExpr (reshape ρ σ θ ps) (reshape ρ σ θ b)
  | .arrow ps b => .arrow (reshape ρ σ θ ps) (reshape ρ σ θ b)
  | .block ss => .block (reshape ρ σ θ ss)
  | .program ss => .program (reshape ρ σ θ ss)
  | .exprStmt e => .exprStmt (reshape ρ σ θ e)

end

/-! ### The raw object-graph model

The reflection-style traversals of the source (`Object.keys` descent in
`extractFunctions`, clone-then-mutate in `normalizeAST`) operate on arbitrary
JavaScript object graphs, which — unlike the inductive tree above — may be
cyclic and are subject to in-place mutation.  A heap of numbered nodes makes
those two aspects statable: recursion is indexed by an explicit stack-depth
fuel (`none` = the recursion never returns within that depth), and mutation
is an update of the node list. -/

/-- One heap node: a `type` tag, the two mutable scalar fields the
canonicalizer writes (`name` for identifiers, `value` for literals and
template elements), and the object-valued children in field order. -/
structure SNode where
  kind : String
  name : String
  value : String
  kids : List Nat
deriving DecidableEq, Repr

/-- The object heap: node identity is the index. -/
abbrev Store := List SNode

/-- The function-like tag test of `extractFunctions`, on tags. -/
def isFuncKind (k : String) : Bool :=
  k == "FunctionDeclaration" || k == "FunctionExpression" || k == "ArrowFunctionExpression"

/-- `extractFunctions`' recursive `traverse` over the raw object graph, with
an explicit recursion-depth fuel: `none` means the walk did not return within
that stack depth.  The walker of the source has no depth bound and no visited
set, so this is a direct transcription of its recursion.  (What is pushed for
a function node is irrelevant to termination; the tag stands in for the
rendered text here.) -/
def extractFuelS (st : Store) : Nat → Nat → Option (List String)
  | 0, _ => none
  | fuel + 1, id =>
    match st.get? id with
    | none => some []
    | some n =>
        n.kids.foldlM (fun acc k => (extractFuelS st fuel k).map (fun l => acc ++ l))
          (if isFuncKind n.kind then [n.kind] else [])

/-- The walk from `id` runs out of every finite recursion depth — the
fuel-indexed rendering of non-termination. -/
def divergesAt (st : Store) (id : Nat) : Prop :=
  ∀ fuel, extractFuelS st fuel id = none

/-- A self-referential object: a node whose child field points back to the
node itself. -/
def cyclicStore : Store := [⟨"Program", "", "", [0]⟩]

mutual

/-- The deep clone `JSON.parse(JSON.stringify(clonedNode))` over the object
graph: every reachable node is copied to a freshly allocated index at the end
of the heap (originals and copies coexist in the one JavaScript heap).
`none` models `JSON.stringify` throwing — a cyclic structure, rendered here
as exhaustion of the serialization depth. -/
def cloneFuel (st : Store) : Nat → Nat → Store → Option (Store × Nat)
  | 0, _, _ => none
  | fuel + 1, id, heap =>
    match st.get? id with
    | none => none
    | some n =>
        match cloneKids st fuel n.kids heap with
        | none => none
        | some (heap2, kidIds) =>
            some (heap2 ++ [⟨n.kind, n.name, n.value, kidIds⟩], heap2.length)

/-- Clone of a child list, left to right, threading the heap. -/
def cloneKids (st : Store) : Nat → List Nat → Store → Option (Store × List Nat)
  | _, [], heap => some (heap, [])
  | fuel, k :: ks, heap =>
    match cloneFuel st fuel k heap with
    | none => none
    | some (heap2, kid) =>
        match cloneKids st fuel ks heap2 with
        | none => none
        | some (heap3, rest) => some (heap3, kid :: rest)

end

/-- The per-node field mutation of the canonicalizer's traversal:
`Identifier.name`, `Literal`/`StringLiteral.value`, and a template element's
`value.raw`/`value.cooked` (written when the parent `TemplateLiteral` is
processed; folded here into the element node) become `"placeholder"`.  Child
pointers are never rewritten. -/
def setNorm (n : SNode) : SNode :=
  if n.kind = "Identifier" then ⟨n.kind, "placeholder", n.value, n.kids⟩
  else if n.kind = "Literal" ∨ n.kind = "StringLiteral" then
    ⟨n.kind, n.name, "placeholder", n.kids⟩
  else if n.kind = "TemplateElement" then ⟨n.kind, n.name, "placeholder", n.kids⟩
  else n

/-- The mutating traversal of `normalizeAST` over the heap: rewrite the
fields of the node in place, then recurse into every object child, with an
explicit recursion depth. -/
def mutFuel : Store → Nat → Nat → Store
  | heap, 0, _ => heap
  | heap, fuel + 1, id =>
    match heap.get? id with
    | none => heap
    | some n => n.kids.foldl (fun h k => mutFuel h fuel k) (heap.set id (setNorm n))

/-- The heap effect of `normalizeAST`: clone the subgraph reachable from
`root`, then run the mutating traversal on the fresh clone root.  When the
clone throws, the outer catch leaves the heap as it was. -/
def normalizeClone (st : Store) (cloneDepth mutDepth root : Nat) : Store :=
  match cloneFuel st cloneDepth root st with
  | none => st
  | some (heap, newRoot) => mutFuel heap mutDepth newRoot

/-- Recursion-depth measure of a well-formed tree, used to show the
fuel-indexed walker completes on every finite tree. -/
def height : JNode → Nat
  | .jnull => 0
  | .jnil => 0
  | .jcons h t => max (height h) (height t) + 1
  | .ident _ => 0
  | .strLit _ => 0
  | .numLit _ => 0
  | .quasi _ _ => 0
  | .template qs es => max (height qs) (height es) + 1
  | .templateBad qs es => max (height qs) (height es) + 1
  | .binop _ l r => max (height l) (height r) + 1
  | .call c as => max (height c) (height as) + 1
  | .ret a => height a + 1
  | .ifStmt t c a => max (height t) (max (height c) (height a)) + 1
  | .funcDecl i ps b => max (height i) (max (height ps) (height b)) + 1
  | .funcExpr ps b => max (height ps) (height b) + 1
  | .arrow ps b => max (height ps) (height b) + 1
  | .block ss => height ss + 1
  | .program ss => height ss + 1
  | .exprStmt e => height e + 1

/-- `extractFunctions` with the recursion depth made explicit, on trees: the
same walk as `extractFuelS`, but over the inductive tree, so that its
completion on every finite tree can be stated against the total
`extractFunctions`. -/
def extractFuelJ : Nat → JNode → Option (List String)
  | 0, _ => none
  | fuel + 1, n =>
    match n with
    | .jnull => some []
    | .jnil => some []
    | .jcons h t => do
        let a ← extractFuelJ fuel h
        let b ← extractFuelJ fuel t
        pure (a ++ b)
    | .ident _ => some []
    | .strLit _ => some []
    | .numLit _ => some []
    | .quasi _ _ => some []
    | .template qs es => do
        let a ← extractFuelJ fuel qs
        let b ← extractFuelJ fuel es
        pure (a ++ b)
    | .templateBad qs es => do
        let a ← extractFuelJ fuel qs
        let b ← extractFuelJ fuel es
        pure (a ++ b)
    | .binop _ l r => do
        let a ← extractFuelJ fuel l
        let b ← extractFuelJ fuel r
        pure (a ++ b)
    | .call c as => do
        let a ← extractFuelJ fuel c
        let b ← extractFuelJ fuel as
        pure (a ++ b)
    | .ret a => extractFuelJ fuel a
    | .ifStmt t c a => do
        let x ← extractFuelJ fuel t
        let y ← extractFuelJ fuel c
        let z ← extractFuelJ fuel a
        pure (x ++ y ++ z)
    | .funcDecl i ps b => do
        let x ← extractFuelJ fuel i
        let y ← extractFuelJ fuel ps
        let z ← extractFuelJ fuel b
        pure (nodeToString (.funcDecl i ps b) :: (x ++ y ++ z))
    | .funcExpr ps b => do
        let y ← extractFuelJ fuel ps
        let z ← extractFuelJ fuel b
        pure (nodeToString (.funcExpr ps b) :: (y ++ z))
    | .arrow ps b => do
        let y ← extractFuelJ fuel ps
        let z ← extractFuelJ fuel b
        pure (nodeToString (.arrow ps b) :: (y ++ z))
    | .block ss => extractFuelJ fuel ss
    | .program ss => extractFuelJ fuel ss
    | .exprStmt e => extractFuelJ fuel e

/-! ## Helper lemmas -/

/-- Array-spine step of `normQuasis` at a non-quasi head. -/
lemma normQuasis_jcons_ne (h t : JNode) (hne : ∀ r c, h ≠ .quasi r c) :
    normQuasis (.jcons h t) = .jcons (normTraverse h) (normQuasis t) := by
  cases h <;> simp [normQuasis]
  exact absurd rfl (hne _ _)

/-- Array-spine step of `reshapeQuasis` at a non-quasi head. -/
lemma reshapeQuasis_jcons_ne (ρ σ θ : String → String) (h t : JNode)
    (hne : ∀ r c, h ≠ .quasi r c) :
    reshapeQuasis ρ σ θ (.jcons h t) = .jcons (reshape ρ σ θ h) (reshapeQuasis ρ σ θ t) := by
  cases h <;> simp [reshapeQuasis]
  exact absurd rfl (hne _ _)

/-- `reshape` preserves the head constructor; in particular it cannot create
a quasi node. -/
lemma reshape_ne_quasi (ρ σ θ : String → String) (h : JNode)
    (hne : ∀ r c, h ≠ .quasi r c) : ∀ r c, reshape ρ σ θ h ≠ .quasi r c := by
  cases h <;> simp [reshape]
  exact absurd rfl (hne _ _)

/-- Canonicalization erases exactly what `reshape` varies: renaming every
identifier, substituting every string-literal value and every template-quasi
value changes nothing about the canonicalized tree. -/
lemma reshape_norm (ρ σ θ : String → String) (t : JNode) :
    normTraverse (reshape ρ σ θ t) = normTraverse t ∧
      normQuasis (reshapeQuasis ρ σ θ t) = normQuasis t := by
  induction t with
  | jnull => exact ⟨by simp [reshape, normTraverse], by simp [reshapeQuasis, reshape]⟩
  | jnil => exact ⟨by simp [reshape, normTraverse], by simp [reshapeQuasis, reshape]⟩
  | jcons h t ihh iht =>
      refine ⟨by simp [reshape, normTraverse, ihh.1, iht.1], ?_⟩
      by_cases hq : ∃ r c, h = JNode.quasi r c
      · obtain ⟨r, c, rfl⟩ := hq
        simp [reshapeQuasis, normQuasis, iht.2]
      · have hne : ∀ r c, h ≠ JNode.quasi r c := by
          intro r c hrc; exact hq ⟨r, c, hrc⟩
        rw [reshapeQuasis_jcons_ne ρ σ θ h t hne,
          normQuasis_jcons_ne _ _ (reshape_ne_quasi ρ σ θ h hne),
          normQuasis_jcons_ne _ _ hne, ihh.1, iht.2]
  | ident n => exact ⟨by simp [reshape, normTraverse], by simp [reshapeQuasis, reshape, normTraverse, normQuasis]⟩
  | strLit v => exact ⟨by simp [reshape, normTraverse], by simp [reshapeQuasis, reshape, normTraverse, normQuasis]⟩
  | numLit v => exact ⟨by simp [reshape, normTraverse], by simp [reshapeQuasis, reshape, normTraverse, normQuasis]⟩
  | quasi r c => exact ⟨by simp [reshape, normTraverse], by simp [reshapeQuasis, reshape, normTraverse, normQuasis]⟩
  | template qs es ihqs ihes =>
      exact ⟨by simp [reshape, normTraverse, ihqs.2, ihes.1],
        by simp [reshapeQuasis, normQuasis, reshape, normTraverse, ihqs.2, ihes.1]⟩
  | templateBad qs es ihqs ihes =>
      exact ⟨by simp [reshape, normTraverse], by simp [reshapeQuasis, reshape, normTraverse, normQuasis]⟩
  | binop op l r ihl ihr =>
      exact ⟨by simp [reshape, normTraverse, ihl.1, ihr.1],
        by simp [reshapeQuasis, normQuasis, reshape, normTraverse, ihl.1, ihr.1]⟩
  | call c as ihc ihas =>
      exact ⟨by simp [reshape, normTraverse, ihc.1, ihas.1],
        by simp [reshapeQuasis, normQuasis, reshape, normTraverse, ihc.1, ihas.1]⟩
  | ret a iha =>
      exact ⟨by simp [reshape, normTraverse, iha.1],
        by simp [reshapeQuasis, normQuasis, reshape, normTraverse, iha.1]⟩
  | ifStmt t c a iht ihc iha =>
      exact ⟨by simp [reshape, normTraverse, iht.1, ihc.1, iha.1],
        by simp [reshapeQuasis, normQuasis, reshape, normTraverse, iht.1, ihc.1, iha.1]⟩
  | funcDecl i ps b ihi ihps ihb =>
      exact ⟨by simp [reshape, normTraverse, ihi.1, ihps.1, ihb.1],
        by simp [reshapeQuasis, normQuasis, reshape, normTraverse, ihi.1, ihps.1, ihb.1]⟩
  | funcExpr ps b ihps ihb =>
      exact ⟨by simp [reshape, normTraverse, ihps.1, ihb.1],
        by simp [reshapeQuasis, normQuasis, reshape, normTraverse, ihps.1, ihb.1]⟩
  | arrow ps b ihps ihb =>
      exact ⟨by simp [reshape, normTraverse, ihps.1, ihb.1],
        by simp [reshapeQuasis, normQuasis, reshape, normTraverse, ihps.1, ihb.1]⟩
  | block ss ihss =>
      exact ⟨by simp [reshape, normTraverse, ihss.1],
        by simp [reshapeQuasis, normQuasis, reshape, normTraverse, ihss.1]⟩
  | program ss ihss =>
      exact ⟨by simp [reshape, normTraverse, ihss.1],
        by simp [reshapeQuasis, normQuasis, reshape, normTraverse, ihss.1]⟩
  | exprStmt e ihe =>
      exact ⟨by simp [reshape, normTraverse, ihe.1],
        by simp [reshapeQuasis, normQuasis, reshape, normTraverse, ihe.1]⟩

/-- The walk over the self-referential object never returns, at any
recursion depth. -/
lemma cyclic_diverges (fuel : Nat) : extractFuelS cyclicStore fuel 0 = none := by
  induction fuel with
  | zero => rfl
  | succ n ih =>
      simp [extractFuelS, cyclicStore]
      exact ih

/-- On a finite tree, the fuel-indexed walker completes once the fuel
exceeds the tree height, returning exactly the total extraction. -/
lemma extractFuelJ_complete :
    ∀ fuel t, height t < fuel → extractFuelJ fuel t = some (extractFunctions t) := by
  intro fuel
  induction fuel with
  | zero => intro t h; omega
  | succ n ih =>
      intro t h
      cases t with
      | jnull => rfl
      | jnil => rfl
      | jcons a b =>
          simp only [height, Nat.add_lt_add_iff_right, Nat.max_lt] at h
          simp [extractFuelJ, extractFunctions, ih a h.1, ih b h.2]
      | ident m => rfl
      | strLit v => rfl
      | numLit v => rfl
      | quasi r c => rfl
      | template qs es =>
          simp only [height, Nat.add_lt_add_iff_right, Nat.max_lt] at h
          simp [extractFuelJ, extractFunctions, ih qs h.1, ih es h.2]
      | templateBad qs es =>
          simp only [height, Nat.add_lt_add_iff_right, Nat.max_lt] at h
          simp [extractFuelJ, extractFunctions, ih qs h.1, ih es h.2]
      | binop op l r =>
          simp only [height, Nat.add_lt_add_iff_right, Nat.max_lt] at h
          simp [extractFuelJ, extractFunctions, ih l h.1, ih r h.2]
      | call c as =>
          simp only [height, Nat.add_lt_add_iff_right, Nat.max_lt] at h
          simp [extractFuelJ, extractFunctions, ih c h.1, ih as h.2]
      | ret a =>
          simp only [height, Nat.add_lt_add_iff_right] at h
          simp [extractFuelJ, extractFunctions, ih a h]
      | ifStmt t c a =>
          simp only [height, Nat.add_lt_add_iff_right, Nat.max_lt] at h
          simp [extractFuelJ, extractFunctions, ih t h.1, ih c h.2.1, ih a h.2.2]
      | funcDecl i ps b =>
          simp only [height, Nat.add_lt_add_iff_right, Nat.max_lt] at h
          simp [extractFuelJ, extractFunctions, ih i h.1, ih ps h.2.1, ih b h.2.2]
      | funcExpr ps b =>
          simp only [height, Nat.add_lt_add_iff_right, Nat.max_lt] at h
          simp [extractFuelJ, extractFunctions, ih ps h.1, ih b h.2]
      | arrow ps b =>
          simp only [height, Nat.add_lt_add_iff_right, Nat.max_lt] at h
          simp [extractFuelJ, extractFunctions, ih ps h.1, ih b h.2]
      | block ss =>
          simp only [height, Nat.add_lt_add_iff_right] at h
          simp [extractFuelJ, extractFunctions, ih ss h]
      | program ss =>
          simp only [height, Nat.add_lt_add_iff_right] at h
          simp [extractFuelJ, extractFunctions, ih ss h]
      | exprStmt e =>
          simp only [height, Nat.add_lt_add_iff_right] at h
          simp [extractFuelJ, extractFunctions, ih e h]

/-- Relation between the structural accumulator and the flat contribution
list it was built from: every entry is keyed by the hash of its
representative canonical text and holds exactly the contributions whose
canonical text hashes to that key, in order; and every contribution has an
entry under its hash. -/
def StructInv (m : List (String × StructGroup)) (cs : List (String × OrigFn)) : Prop :=
  (∀ p ∈ m, p.1 = hashCode p.2.normalizedFunction ∧
    p.2.originalFunctions = (cs.filter (fun c => hashCode c.1 = p.1)).map Prod.snd) ∧
  (∀ c ∈ cs, ∃ p ∈ m, p.1 = hashCode c.1)

/-- Every recorded contribution came from a successful re-parse and a
non-empty canonicalization of its own recorded source text. -/
def StructProv (parse : Parser) (cs : List (String × OrigFn)) : Prop :=
  ∀ c ∈ cs, ∃ ast, parse c.2.function = .ok ast ∧ normalizeAST ast = c.1 ∧ c.1 ≠ ""

lemma structInsert_inv (m : List (String × StructGroup)) (cs : List (String × OrigFn))
    (normCode file orig : String) (h : StructInv m cs) :
    StructInv (structInsert m normCode file orig) (cs ++ [(normCode, ⟨file, orig⟩)]) := by
  obtain ⟨h1, h2⟩ := h
  cases hfind : m.find? (fun p => p.1 = hashCode normCode) with
  | none =>
      have heq : structInsert m normCode file orig =
          m ++ [(hashCode normCode, ⟨normCode, [⟨file, orig⟩]⟩)] := by
        simp [structInsert, hfind]
      rw [heq]
      have hnone : ∀ p ∈ m, p.1 ≠ hashCode normCode := by
        intro p hp
        simpa using List.find?_eq_none.mp hfind p hp
      constructor
      · intro p hp
        rcases List.mem_append.mp hp with hmem | hmem
        · refine ⟨(h1 p hmem).1, ?_⟩
          rw [(h1 p hmem).2, List.filter_append]
          have hsingle :
              (([(normCode, (⟨file, orig⟩ : OrigFn))]).filter
                (fun c => decide (hashCode c.1 = p.1))) = [] := by
            have hne := hnone p hmem
            simp only [List.filter]
            have hd : decide (hashCode normCode = p.1) = false := by
              simp only [decide_eq_false_iff_not]
              intro hcontra
              exact hne hcontra.symm
            rw [hd]
          simp [hsingle]
        · simp only [List.mem_singleton] at hmem
          subst hmem
          have hcs : (cs.filter (fun c => decide (hashCode c.1 = hashCode normCode))) = [] := by
            rw [List.filter_eq_nil_iff]
            intro c hc
            simp only [decide_eq_true_eq]
            intro heq
            obtain ⟨p, hp, hkey⟩ := h2 c hc
            exact hnone p hp (hkey.trans heq)
          refine ⟨rfl, ?_⟩
          simp [List.filter_append, hcs, List.filter]
      · intro c hc
        rcases List.mem_append.mp hc with hmem | hmem
        · obtain ⟨p, hp, hkey⟩ := h2 c hmem
          exact ⟨p, List.mem_append.mpr (Or.inl hp), hkey⟩
        · simp only [List.mem_singleton] at hmem
          subst hmem
          refine ⟨(hashCode normCode, ⟨normCode, [⟨file, orig⟩]⟩),
            List.mem_append.mpr (Or.inr (List.mem_singleton.mpr rfl)), rfl⟩
  | some q =>
      have heq : structInsert m normCode file orig =
          m.map (fun p =>
            if p.1 = hashCode normCode then
              (p.1, ⟨p.2.normalizedFunction, p.2.originalFunctions ++ [⟨file, orig⟩]⟩)
            else p) := by
        simp [structInsert, hfind]
      rw [heq]
      constructor
      · intro p hp
        obtain ⟨p0, hp0, hmap⟩ := List.mem_map.mp hp
        by_cases hkey : p0.1 = hashCode normCode
        · rw [if_pos hkey] at hmap
          subst hmap
          refine ⟨(h1 p0 hp0).1, ?_⟩
          show p0.2.originalFunctions ++ [(⟨file, orig⟩ : OrigFn)] = _
          rw [List.filter_append, List.map_append, ← (h1 p0 hp0).2]
          have hsingle : (([(normCode, (⟨file, orig⟩ : OrigFn))]).filter
              (fun c => decide (hashCode c.1 = p0.1))) = [(normCode, (⟨file, orig⟩ : OrigFn))] := by
            simp only [List.filter]
            have hd : decide (hashCode normCode = p0.1) = true := by
              simp only [decide_eq_true_eq]
              exact hkey.symm
            rw [hd]
          rw [hsingle]
          rfl
        · rw [if_neg hkey] at hmap
          subst hmap
          refine ⟨(h1 p0 hp0).1, ?_⟩
          rw [(h1 p0 hp0).2, List.filter_append]
          have hsingle : (([(normCode, (⟨file, orig⟩ : OrigFn))]).filter
              (fun c => decide (hashCode c.1 = p0.1))) = [] := by
            simp only [List.filter]
            have hd : decide (hashCode normCode = p0.1) = false := by
              simp only [decide_eq_false_iff_not]
              intro hcontra
              exact hkey hcontra.symm
            rw [hd]
          simp [hsingle]
      · intro c hc
        rcases List.mem_append.mp hc with hmem | hmem
        · obtain ⟨p, hp, hkey⟩ := h2 c hmem
          refine ⟨(if p.1 = hashCode normCode then
              (p.1, ⟨p.2.normalizedFunction, p.2.originalFunctions ++ [⟨file, orig⟩]⟩) else p),
            List.mem_map.mpr ⟨p, hp, rfl⟩, ?_⟩
          by_cases hk : p.1 = hashCode normCode
          · rw [if_pos hk]
            exact hkey
          · rw [if_neg hk]
            exact hkey
        · simp only [List.mem_singleton] at hmem
          subst hmem
          have hq := List.mem_of_find?_eq_some hfind
          have hqkey : q.1 = hashCode normCode := by
            simpa using List.find?_some hfind
          refine ⟨(q.1, ⟨q.2.normalizedFunction, q.2.originalFunctions ++ [⟨file, orig⟩]⟩), ?_, hqkey⟩
          refine List.mem_map.mpr ⟨q, hq, ?_⟩
          rw [if_pos hqkey]

lemma exceptBind_ok {α β : Type} (a : α) (f : α → Except String β) :
    (Except.ok a >>= f) = f a := rfl

lemma exceptPure {α : Type} (a : α) : (pure a : Except String α) = Except.ok a := rfl

lemma exceptBind_err {α β : Type} (e : String) (f : α → Except String β) :
    ((Except.error e : Except String α) >>= f) = Except.error e := rfl

lemma exceptMap_ok {α β : Type} (f : α → β) (a : α) :
    (Except.ok a : Except String α).map f = Except.ok (f a) := rfl

lemma exceptMap_err {α β : Type} (f : α → β) (e : String) :
    (Except.error e : Except String α).map f = Except.error e := rfl

lemma structFunc_inv (parse : Parser) (file : String)
    (m : List (String × StructGroup)) (cs : List (String × OrigFn)) (orig : String)
    (h : StructInv m cs) :
    StructInv (structFunc parse file m orig) (structOccStep parse file cs orig) := by
  unfold structFunc structOccStep
  cases parse orig with
  | error e => exact h
  | ok past =>
      by_cases hc : normalizeAST past = ""
      · simp only [hc, if_pos rfl]
        exact h
      · simp only [if_neg hc]
        exact structInsert_inv m cs (normalizeAST past) file orig h

lemma structProv_step (parse : Parser) (file : String) (cs : List (String × OrigFn))
    (orig : String) (h : StructProv parse cs) :
    StructProv parse (structOccStep parse file cs orig) := by
  unfold structOccStep
  cases hp : parse orig with
  | error e => exact h
  | ok past =>
      by_cases hc : normalizeAST past = ""
      · simp only [hc, if_pos rfl]
        exact h
      · simp only [if_neg hc]
        intro c hcmem
        rcases List.mem_append.mp hcmem with hmem | hmem
        · exact h c hmem
        · simp only [List.mem_singleton] at hmem
          subst hmem
          exact ⟨past, hp, rfl, hc⟩

lemma structFold_inv (parse : Parser) (file : String) :
    ∀ (origs : List String) (m : List (String × StructGroup)) (cs : List (String × OrigFn)),
      StructInv m cs →
      StructInv (origs.foldl (structFunc parse file) m)
        (origs.foldl (structOccStep parse file) cs) := by
  intro origs
  induction origs with
  | nil => intro m cs h; exact h
  | cons o os ih =>
      intro m cs h
      exact ih _ _ (structFunc_inv parse file m cs o h)

lemma structProv_fold (parse : Parser) (file : String) :
    ∀ (origs : List String) (cs : List (String × OrigFn)),
      StructProv parse cs → StructProv parse (origs.foldl (structOccStep parse file) cs) := by
  intro origs
  induction origs with
  | nil => intro cs h; exact h
  | cons o os ih =>
      intro cs h
      exact ih _ (structProv_step parse file cs o h)

lemma structFile_inv (parse : Parser) (fileMap : String → String) (file : String)
    (m : List (String × StructGroup)) (cs : List (String × OrigFn))
    (m' : List (String × StructGroup))
    (h : StructInv m cs) (hm : structFile parse fileMap m file = .ok m') :
    ∃ cs', structOccFile parse fileMap cs file = .ok cs' ∧ StructInv m' cs' := by
  unfold structFile at hm
  unfold structOccFile
  cases hp : parse (fileMap file) with
  | error e =>
      rw [hp] at hm
      simp only [exceptBind_err] at hm
      exact absurd hm (by simp)
  | ok ast =>
      rw [hp] at hm
      simp only [exceptBind_ok, exceptPure, Except.ok.injEq] at hm
      subst hm
      refine ⟨_, rfl, ?_⟩
      exact structFold_inv parse file (extractFunctions ast) m cs h

lemma structProv_file (parse : Parser) (fileMap : String → String) (file : String)
    (cs cs' : List (String × OrigFn))
    (hm : structOccFile parse fileMap cs file = .ok cs') (h : StructProv parse cs) :
    StructProv parse cs' := by
  unfold structOccFile at hm
  cases hp : parse (fileMap file) with
  | error e =>
      rw [hp] at hm
      simp only [exceptBind_err] at hm
      exact absurd hm (by simp)
  | ok ast =>
      rw [hp] at hm
      simp only [exceptBind_ok, exceptPure, Except.ok.injEq] at hm
      subst hm
      exact structProv_fold parse file (extractFunctions ast) cs h

lemma structRun_inv (parse : Parser) (fileMap : String → String) :
    ∀ (files : List String) (m : List (String × StructGroup)) (cs : List (String × OrigFn)),
      StructInv m cs →
      ∀ m', files.foldlM (structFile parse fileMap) m = .ok m' →
      ∃ cs', files.foldlM (structOccFile parse fileMap) cs = .ok cs' ∧ StructInv m' cs' := by
  intro files
  induction files with
  | nil =>
      intro m cs h m' hm
      have hm2 : m = m' := Except.ok.inj hm
      subst hm2
      exact ⟨cs, rfl, h⟩
  | cons f fs ih =>
      intro m cs h m' hm
      simp only [List.foldlM_cons] at hm ⊢
      cases hstep : structFile parse fileMap m f with
      | error e =>
          rw [hstep] at hm
          simp only [exceptBind_err] at hm
          exact absurd hm (by simp)
      | ok m1 =>
          rw [hstep] at hm
          simp only [exceptBind_ok] at hm
          obtain ⟨cs1, hcs1, hinv1⟩ := structFile_inv parse fileMap f m cs m1 h hstep
          rw [hcs1]
          simp only [exceptBind_ok]
          exact ih m1 cs1 hinv1 m' hm

lemma structProv_run (parse : Parser) (fileMap : String → String) :
    ∀ (files : List String) (cs cs' : List (String × OrigFn)),
      files.foldlM (structOccFile parse fileMap) cs = .ok cs' →
      StructProv parse cs → StructProv parse cs' := by
  intro files
  induction files with
  | nil =>
      intro cs cs' hm h
      have hm2 : cs = cs' := Except.ok.inj hm
      subst hm2
      exact h
  | cons f fs ih =>
      intro cs cs' hm h
      simp only [List.foldlM_cons] at hm
      cases hstep : structOccFile parse fileMap cs f with
      | error e =>
          rw [hstep] at hm
          simp only [exceptBind_err] at hm
          exact absurd hm (by simp)
      | ok cs1 =>
          rw [hstep] at hm
          simp only [exceptBind_ok] at hm
          exact ih cs1 cs' hm (structProv_file parse fileMap f cs cs1 hstep h)

/-- Invariant of the exact-duplicate accumulator: every entry's file list is
duplicate-free (the `includes` guard). -/
def ExactInv (hs : List (String × ExactEntry)) : Prop :=
  ∀ p ∈ hs, p.2.files.Nodup

lemma exactInsert_inv (hs : List (String × ExactEntry)) (file funcCode : String)
    (h : ExactInv hs) : ExactInv (exactInsert hs file funcCode) := by
  cases hfind : hs.find? (fun p => p.1 = hashCode funcCode) with
  | none =>
      have heq : exactInsert hs file funcCode =
          hs ++ [(hashCode funcCode, ⟨funcCode, [file]⟩)] := by
        simp [exactInsert, hfind]
      rw [heq]
      intro p hp
      rcases List.mem_append.mp hp with hm | hm
      · exact h p hm
      · simp only [List.mem_singleton] at hm
        subst hm
        simp
  | some q =>
      have heq : exactInsert hs file funcCode =
          hs.map (fun p =>
            if p.1 = hashCode funcCode then
              (p.1, if file ∈ p.2.files then p.2 else ⟨p.2.code, p.2.files ++ [file]⟩)
            else p) := by
        simp [exactInsert, hfind]
      rw [heq]
      intro p hp
      obtain ⟨p0, hp0, hmap⟩ := List.mem_map.mp hp
      subst hmap
      by_cases hk : p0.1 = hashCode funcCode
      · rw [if_pos hk]
        by_cases hf : file ∈ p0.2.files
        · rw [if_pos hf]
          exact h p0 hp0
        · rw [if_neg hf]
          show (p0.2.files ++ [file]).Nodup
          rw [List.nodup_append]
          exact ⟨h p0 hp0, List.nodup_singleton file,
            by simp only [List.disjoint_singleton]; exact hf⟩
      · rw [if_neg hk]
        exact h p0 hp0

lemma exactFold_inv (file : String) :
    ∀ (funcs : List String) (hs : List (String × ExactEntry)),
      ExactInv hs →
      ExactInv (funcs.foldl (fun acc func => exactInsert acc file (jsTrim func)) hs) := by
  intro funcs
  induction funcs with
  | nil => intro hs h; exact h
  | cons f fs ih =>
      intro hs h
      exact ih _ (exactInsert_inv hs file (jsTrim f) h)

lemma exactFile_inv (parse : Parser) (fileMap : String → String) (file : String)
    (hs hs' : List (String × ExactEntry))
    (h : ExactInv hs) (hm : exactFile parse fileMap hs file = .ok hs') :
    ExactInv hs' := by
  unfold exactFile at hm
  cases hp : parse (fileMap file) with
  | error e =>
      rw [hp] at hm
      simp only [exceptBind_err] at hm
      exact absurd hm (by simp)
  | ok ast =>
      rw [hp] at hm
      simp only [exceptBind_ok, exceptPure, Except.ok.injEq] at hm
      subst hm
      exact exactFold_inv file (extractFunctions ast) hs h

lemma exactRun_inv (parse : Parser) (fileMap : String → String) :
    ∀ (files : List String) (hs hs' : List (String × ExactEntry)),
      ExactInv hs →
      files.foldlM (exactFile parse fileMap) hs = .ok hs' →
      ExactInv hs' := by
  intro files
  induction files with
  | nil =>
      intro hs hs' h hm
      have hm2 : hs = hs' := Except.ok.inj hm
      subst hm2
      exact h
  | cons f fs ih =>
      intro hs hs' h hm
      simp only [List.foldlM_cons] at hm
      cases hstep : exactFile parse fileMap hs f with
      | error e =>
          rw [hstep] at hm
          simp only [exceptBind_err] at hm
          exact absurd hm (by simp)
      | ok hs1 =>
          rw [hstep] at hm
          simp only [exceptBind_ok] at hm
          exact ih hs1 hs' (exactFile_inv parse fileMap f hs hs1 h hstep) hm

/-- Every match the inner loop emits comes from a compared index `j ≠ i` of
its bucket, carries that record's code and file, and its recorded similarity
is the computed score, which meets the threshold. -/
lemma innerLoop_sound (g : List FnOcc) (i : Nat) (threshold : ℚ) :
    ∀ (js : List Nat) (seen : List String),
      ∀ m ∈ (innerLoop g i threshold js seen).1,
        ∃ j ∈ js, j ≠ i ∧
          m.function = (g.getD j ⟨"", ""⟩).code ∧
          m.files = [(g.getD j ⟨"", ""⟩).file] ∧
          m.similarity = compareTwoStrings (g.getD i ⟨"", ""⟩).code (g.getD j ⟨"", ""⟩).code ∧
          threshold ≤ m.similarity := by
  intro js
  induction js with
  | nil =>
      intro seen m hm
      simp [innerLoop] at hm
  | cons j js ih =>
      intro seen m hm
      simp only [innerLoop] at hm
      split at hm
      · obtain ⟨j', hj', rest⟩ := ih seen m hm
        exact ⟨j', List.mem_cons_of_mem j hj', rest⟩
      · rename_i hij
        split at hm
        · rename_i hsim
          split at hm
          · obtain ⟨j', hj', rest⟩ := ih seen m hm
            exact ⟨j', List.mem_cons_of_mem j hj', rest⟩
          · rcases List.mem_cons.mp hm with heq | hmem
            · subst heq
              exact ⟨j, List.mem_cons_self j js, fun h => hij h.symm, rfl, rfl, rfl, hsim⟩
            · obtain ⟨j', hj', rest⟩ := ih _ m hmem
              exact ⟨j', List.mem_cons_of_mem j hj', rest⟩
        · obtain ⟨j', hj', rest⟩ := ih seen m hm
          exact ⟨j', List.mem_cons_of_mem j hj', rest⟩

/-- Head-emission of the inner loop: a compared pair whose similarity
reaches the threshold — including exactly at the threshold — and whose
canonical key is fresh is emitted, as the next match. -/
lemma innerLoop_emits (g : List FnOcc) (i j : Nat) (threshold : ℚ)
    (js : List Nat) (seen : List String)
    (hij : i ≠ j)
    (hsim : threshold ≤ compareTwoStrings (g.getD i ⟨"", ""⟩).code (g.getD j ⟨"", ""⟩).code)
    (hfresh : pairKey (g.getD i ⟨"", ""⟩).file (g.getD j ⟨"", ""⟩).file
      (g.getD i ⟨"", ""⟩).code ∉ seen) :
    (innerLoop g i threshold (j :: js) seen).1 =
      ⟨(g.getD j ⟨"", ""⟩).code,
        compareTwoStrings (g.getD i ⟨"", ""⟩).code (g.getD j ⟨"", ""⟩).code,
        [(g.getD j ⟨"", ""⟩).file]⟩ ::
      (innerLoop g i threshold js
        (pairKey (g.getD i ⟨"", ""⟩).file (g.getD j ⟨"", ""⟩).file
          (g.getD i ⟨"", ""⟩).code :: seen)).1 := by
  simp only [innerLoop]
  rw [if_neg hij, if_pos hsim, if_neg hfresh]

/-- The canonical key a match of anchor `i` was recorded under. -/
def matchKey (anchorFile anchorCode : String) (m : NearMatch) : String :=
  pairKey anchorFile (m.files.getD 0 "") anchorCode

/-- All keys of all matches across a result list, in emission order. -/
def matchKeys (rs : List NearRes) : List String :=
  rs.flatMap (fun r => r.«matches».map (matchKey r.file r.function))

/-- Key bookkeeping of the inner loop: the `seenPairs` set only grows, every
emitted match's key is fresh relative to the incoming set, the emitted keys
are pairwise distinct, and all of them are recorded in the outgoing set. -/
lemma innerLoop_keys (g : List FnOcc) (i : Nat) (threshold : ℚ) :
    ∀ (js : List Nat) (seen : List String),
      (∀ s ∈ seen, s ∈ (innerLoop g i threshold js seen).2) ∧
      ((innerLoop g i threshold js seen).1.map
        (matchKey (g.getD i ⟨"", ""⟩).file (g.getD i ⟨"", ""⟩).code)).Nodup ∧
      (∀ k ∈ (innerLoop g i threshold js seen).1.map
          (matchKey (g.getD i ⟨"", ""⟩).file (g.getD i ⟨"", ""⟩).code),
        k ∉ seen ∧ k ∈ (innerLoop g i threshold js seen).2) := by
  intro js
  induction js with
  | nil =>
      intro seen
      refine ⟨fun s hs => hs, by simp [innerLoop], ?_⟩
      simp [innerLoop]
  | cons j js ih =>
      intro seen
      simp only [innerLoop]
      split
      · exact ih seen
      · rename_i hij
        split
        · rename_i hsim
          split
          · exact ih seen
          · rename_i hfresh
            obtain ⟨ihgrow, ihnodup, ihfresh⟩ :=
              ih (pairKey (g.getD i ⟨"", ""⟩).file (g.getD j ⟨"", ""⟩).file
                (g.getD i ⟨"", ""⟩).code :: seen)
            have hkeyval : matchKey (g.getD i ⟨"", ""⟩).file (g.getD i ⟨"", ""⟩).code
                (⟨(g.getD j ⟨"", ""⟩).code,
                  compareTwoStrings (g.getD i ⟨"", ""⟩).code (g.getD j ⟨"", ""⟩).code,
                  [(g.getD j ⟨"", ""⟩).file]⟩ : NearMatch) =
                pairKey (g.getD i ⟨"", ""⟩).file (g.getD j ⟨"", ""⟩).file
                  (g.getD i ⟨"", ""⟩).code := rfl
            refine ⟨?_, ?_, ?_⟩
            · intro s hs
              exact ihgrow s (List.mem_cons_of_mem _ hs)
            · simp only [List.map_cons, List.nodup_cons, hkeyval]
              refine ⟨fun hmem => ?_, ihnodup⟩
              exact (ihfresh _ hmem).1 (List.mem_cons_self _ _)
            · intro k hk
              simp only [List.map_cons, hkeyval] at hk
              rcases List.mem_cons.mp hk with heq | hmem
              · subst heq
                exact ⟨hfresh, ihgrow _ (List.mem_cons_self _ _)⟩
              · exact ⟨fun hin => (ihfresh k hmem).1 (List.mem_cons_of_mem _ hin),
                  (ihfresh k hmem).2⟩
        · exact ih seen

/-- Every result the outer loop pushes is anchored at some index of the
index list, and each of its matches comes from a different index of the
bucket with a threshold-reaching score. -/
lemma outerLoop_sound (g : List FnOcc) (threshold : ℚ) :
    ∀ (idxs : List Nat) (seen : List String),
      ∀ r ∈ (outerLoop g threshold idxs seen).1,
        ∃ i ∈ idxs,
          r.function = (g.getD i ⟨"", ""⟩).code ∧ r.file = (g.getD i ⟨"", ""⟩).file ∧
          ∀ m ∈ r.«matches», ∃ j, j < g.length ∧ j ≠ i ∧
            m.function = (g.getD j ⟨"", ""⟩).code ∧
            m.files = [(g.getD j ⟨"", ""⟩).file] ∧
            m.similarity = compareTwoStrings (g.getD i ⟨"", ""⟩).code (g.getD j ⟨"", ""⟩).code ∧
            threshold ≤ m.similarity := by
  intro idxs
  induction idxs with
  | nil =>
      intro seen r hr
      simp [outerLoop] at hr
  | cons i idxs ih =>
      intro seen r hr
      simp only [outerLoop] at hr
      split at hr
      · obtain ⟨i', hi', rest⟩ := ih _ r hr
        exact ⟨i', List.mem_cons_of_mem i hi', rest⟩
      · rcases List.mem_cons.mp hr with heq | hmem
        · subst heq
          refine ⟨i, List.mem_cons_self i idxs, rfl, rfl, ?_⟩
          intro m hm
          obtain ⟨j, hj, hrest⟩ := innerLoop_sound g i threshold (List.range g.length) seen m hm
          exact ⟨j, List.mem_range.mp hj, hrest⟩
        · obtain ⟨i', hi', rest⟩ := ih _ r hmem
          exact ⟨i', List.mem_cons_of_mem i hi', rest⟩

/-- Key bookkeeping of the outer loop, lifted from `innerLoop_keys`. -/
lemma outerLoop_keys (g : List FnOcc) (threshold : ℚ) :
    ∀ (idxs : List Nat) (seen : List String),
      (∀ s ∈ seen, s ∈ (outerLoop g threshold idxs seen).2) ∧
      (matchKeys (outerLoop g threshold idxs seen).1).Nodup ∧
      (∀ k ∈ matchKeys (outerLoop g threshold idxs seen).1,
        k ∉ seen ∧ k ∈ (outerLoop g threshold idxs seen).2) := by
  intro idxs
  induction idxs with
  | nil =>
      intro seen
      refine ⟨fun s hs => hs, by simp [outerLoop, matchKeys], ?_⟩
      simp [outerLoop, matchKeys]
  | cons i idxs ih =>
      intro seen
      simp only [outerLoop]
      obtain ⟨inngrow, innnodup, innfresh⟩ := innerLoop_keys g i threshold (List.range g.length) seen
      obtain ⟨restgrow, restnodup, restfresh⟩ :=
        ih (innerLoop g i threshold (List.range g.length) seen).2
      split
      · refine ⟨fun s hs => restgrow s (inngrow s hs), restnodup, ?_⟩
        intro k hk
        obtain ⟨hk1, hk2⟩ := restfresh k hk
        exact ⟨fun hin => hk1 (inngrow k hin), hk2⟩
      · have hsplit : matchKeys
            (⟨(g.getD i ⟨"", ""⟩).code, (g.getD i ⟨"", ""⟩).file,
              (innerLoop g i threshold (List.range g.length) seen).1⟩ ::
              (outerLoop g threshold idxs
                (innerLoop g i threshold (List.range g.length) seen).2).1) =
            ((innerLoop g i threshold (List.range g.length) seen).1.map
              (matchKey (g.getD i ⟨"", ""⟩).file (g.getD i ⟨"", ""⟩).code)) ++
            matchKeys (outerLoop g threshold idxs
              (innerLoop g i threshold (List.range g.length) seen).2).1 := by
          simp [matchKeys]
        refine ⟨fun s hs => restgrow s (inngrow s hs), ?_, ?_⟩
        · rw [hsplit, List.nodup_append]
          refine ⟨innnodup, restnodup, ?_⟩
          intro k hk
          have hk2 := (innfresh k hk).2
          intro hkrest
          exact (restfresh k hkrest).1 hk2
        · rw [hsplit]
          intro k hk
          rcases List.mem_append.mp hk with hmem | hmem
          · obtain ⟨hk1, hk2⟩ := innfresh k hmem
            exact ⟨hk1, restgrow k hk2⟩
          · obtain ⟨hk1, hk2⟩ := restfresh k hmem
            exact ⟨fun hin => hk1 (inngrow k hin), hk2⟩

/-- Results accumulated over the buckets are each produced by the outer loop
on one of the buckets. -/
lemma bucketFold_sound (threshold : ℚ) :
    ∀ (bs : List (Nat × List FnOcc)) (acc : List NearRes × List String),
      ∀ r ∈ (bs.foldl (bucketStep threshold) acc).1,
        r ∈ acc.1 ∨ ∃ p ∈ bs, ∃ seen,
          r ∈ (outerLoop p.2 threshold (List.range p.2.length) seen).1 := by
  intro bs
  induction bs with
  | nil =>
      intro acc r hr
      exact Or.inl hr
  | cons b bs ih =>
      intro acc r hr
      rcases ih _ r hr with hacc | ⟨p, hp, seen, hout⟩
      · simp only [bucketStep] at hacc
        rcases List.mem_append.mp hacc with hmem | hmem
        · exact Or.inl hmem
        · exact Or.inr ⟨b, List.mem_cons_self b bs, acc.2, hmem⟩
      · exact Or.inr ⟨p, List.mem_cons_of_mem b hp, seen, hout⟩

/-- Invariant carried across buckets: the keys of all results so far are
pairwise distinct and all recorded in the `seenPairs` set. -/
def KeysInv (acc : List NearRes × List String) : Prop :=
  (matchKeys acc.1).Nodup ∧ ∀ k ∈ matchKeys acc.1, k ∈ acc.2

lemma bucketStep_keysInv (threshold : ℚ) (acc : List NearRes × List String)
    (p : Nat × List FnOcc) (h : KeysInv acc) : KeysInv (bucketStep threshold acc p) := by
  obtain ⟨hnodup, hrec⟩ := h
  obtain ⟨ogrow, onodup, ofresh⟩ :=
    outerLoop_keys p.2 threshold (List.range p.2.length) acc.2
  constructor
  · show (matchKeys (acc.1 ++ (outerLoop p.2 threshold (List.range p.2.length) acc.2).1)).Nodup
    rw [show matchKeys (acc.1 ++ (outerLoop p.2 threshold (List.range p.2.length) acc.2).1) =
        matchKeys acc.1 ++
          matchKeys (outerLoop p.2 threshold (List.range p.2.length) acc.2).1 from by
      simp [matchKeys]]
    rw [List.nodup_append]
    refine ⟨hnodup, onodup, ?_⟩
    intro k hk hkout
    exact (ofresh k hkout).1 (hrec k hk)
  · show ∀ k ∈ matchKeys (acc.1 ++ (outerLoop p.2 threshold (List.range p.2.length) acc.2).1),
      k ∈ (outerLoop p.2 threshold (List.range p.2.length) acc.2).2
    intro k hk
    rw [show matchKeys (acc.1 ++ (outerLoop p.2 threshold (List.range p.2.length) acc.2).1) =
        matchKeys acc.1 ++
          matchKeys (outerLoop p.2 threshold (List.range p.2.length) acc.2).1 from by
      simp [matchKeys]] at hk
    rcases List.mem_append.mp hk with hmem | hmem
    · exact ogrow k (hrec k hmem)
    · exact (ofresh k hmem).2

lemma bucketFold_keysInv (threshold : ℚ) :
    ∀ (bs : List (Nat × List FnOcc)) (acc : List NearRes × List String),
      KeysInv acc → KeysInv (bs.foldl (bucketStep threshold) acc) := by
  intro bs
  induction bs with
  | nil => intro acc h; exact h
  | cons b bs ih =>
      intro acc h
      exact ih _ (bucketStep_keysInv threshold acc b h)

/-- The fresh region above watermark `L` is closed: every node stored at an
index `≥ L` points only to indices `≥ L`. -/
def FreshClosed (L : Nat) (heap : Store) : Prop :=
  ∀ j n, L ≤ j → heap.get? j = some n → ∀ k ∈ n.kids, L ≤ k

/-- Clone of one node only appends to the heap, allocates at or above the
watermark, and keeps the fresh region closed. -/
def CloneFuelP (fuel : Nat) : Prop :=
  ∀ (st : Store) (L id : Nat) (heap heap2 : Store) (nid : Nat),
    L ≤ heap.length → FreshClosed L heap →
    cloneFuel st fuel id heap = some (heap2, nid) →
    (∃ Δ, heap2 = heap ++ Δ) ∧ L ≤ nid ∧ FreshClosed L heap2

/-- Clone of a child list only appends, yields children at or above the
watermark, and keeps the fresh region closed. -/
def CloneKidsP (fuel : Nat) : Prop :=
  ∀ (st : Store) (L : Nat) (ks : List Nat) (heap heap2 : Store) (kids2 : List Nat),
    L ≤ heap.length → FreshClosed L heap →
    cloneKids st fuel ks heap = some (heap2, kids2) →
    (∃ Δ, heap2 = heap ++ Δ) ∧ (∀ k ∈ kids2, L ≤ k) ∧ FreshClosed L heap2

lemma freshClosed_concat (L : Nat) (heap : Store) (n : SNode)
    (h : FreshClosed L heap) (hk : ∀ k ∈ n.kids, L ≤ k) :
    FreshClosed L (heap ++ [n]) := by
  intro j m hj hget
  by_cases hcase : j < heap.length
  · rw [List.get?_append hcase] at hget
    exact h j m hj hget
  · have hj2 : j = heap.length ∨ heap.length + 1 ≤ j := by omega
    rcases hj2 with heq | hgt
    · subst heq
      rw [List.get?_concat_length] at hget
      cases hget
      exact hk
    · have : (heap ++ [n]).get? j = none := by
        rw [List.get?_eq_none]
        simp
        omega
      rw [this] at hget
      cases hget

lemma get?_append_left {α : Type} (l₁ l₂ : List α) (n : Nat) (h : n < l₁.length) :
    (l₁ ++ l₂).get? n = l₁.get? n := List.get?_append h

/-- The canonicalizer's field mutation never rewrites child pointers. -/
lemma setNorm_kids (n : SNode) : (setNorm n).kids = n.kids := by
  unfold setNorm
  split_ifs <;> rfl

lemma clone_inv : ∀ fuel, CloneFuelP fuel ∧ CloneKidsP fuel := by
  intro fuel
  induction fuel with
  | zero =>
      constructor
      · intro st L id heap heap2 nid hL hF hc
        simp [cloneFuel] at hc
      · intro st L ks heap heap2 kids2 hL hF hc
        cases ks with
        | nil =>
            simp only [cloneKids, Option.some.injEq, Prod.mk.injEq] at hc
            obtain ⟨h1, h2⟩ := hc
            subst h1
            subst h2
            exact ⟨⟨[], by simp⟩, by simp, hF⟩
        | cons k ks =>
            simp [cloneKids, cloneFuel] at hc
  | succ n ih =>
      have hf : CloneFuelP (n + 1) := by
        intro st L id heap heap2 nid hL hF hc
        simp only [cloneFuel] at hc
        split at hc
        · simp at hc
        · rename_i nd hget
          split at hc
          · simp at hc
          · rename_i heapk kidIds hck
            simp only [Option.some.injEq, Prod.mk.injEq] at hc
            obtain ⟨hheap2, hnid⟩ := hc
            obtain ⟨⟨Δ, hΔ⟩, hkge, hFk⟩ := ih.2 st L nd.kids heap heapk kidIds hL hF hck
            subst hheap2
            subst hnid
            refine ⟨⟨Δ ++ [⟨nd.kind, nd.name, nd.value, kidIds⟩], by rw [hΔ]; simp⟩, ?_, ?_⟩
            · have : heap.length ≤ heapk.length := by
                rw [hΔ]; simp
              omega
            · exact freshClosed_concat L heapk _ hFk hkge
      refine ⟨hf, ?_⟩
      intro st L ks
      induction ks with
      | nil =>
          intro heap heap2 kids2 hL hF hc
          simp only [cloneKids, Option.some.injEq, Prod.mk.injEq] at hc
          obtain ⟨h1, h2⟩ := hc
          subst h1
          subst h2
          exact ⟨⟨[], by simp⟩, by simp, hF⟩
      | cons k ks ihk =>
          intro heap heap2 kids2 hL hF hc
          simp only [cloneKids] at hc
          split at hc
          · simp at hc
          · rename_i heap1 kid hcf
            split at hc
            · simp at hc
            · rename_i heap3 rest hck
              simp only [Option.some.injEq, Prod.mk.injEq] at hc
              obtain ⟨h3, hkid⟩ := hc
              subst h3
              subst hkid
              obtain ⟨⟨Δ1, hΔ1⟩, hkidge, hF1⟩ := hf st L k heap heap1 kid hL hF hcf
              have hL1 : L ≤ heap1.length := by
                have : heap.length ≤ heap1.length := by
                  rw [hΔ1]; simp
                omega
              obtain ⟨⟨Δ2, hΔ2⟩, hrestge, hF3⟩ := ihk heap1 heap3 rest hL1 hF1 hck
              refine ⟨⟨Δ1 ++ Δ2, by rw [hΔ2, hΔ1]; simp⟩, ?_, hF3⟩
              intro kk hkk
              rcases List.mem_cons.mp hkk with heq | hmem
              · subst heq
                exact hkidge
              · exact hrestge kk hmem

/-- The mutating traversal started inside the fresh region neither reads nor
writes below the watermark: every index below `L` is unchanged, and the
fresh region stays closed. -/
lemma mutFuel_frame : ∀ (fuel L : Nat) (heap : Store) (id : Nat),
    FreshClosed L heap → L ≤ id →
    (∀ i, i < L → (mutFuel heap fuel id).get? i = heap.get? i) ∧
    FreshClosed L (mutFuel heap fuel id) := by
  intro fuel
  induction fuel with
  | zero =>
      intro L heap id hF hid
      exact ⟨fun i hi => rfl, hF⟩
  | succ n ih =>
      intro L heap id hF hid
      cases hget : heap.get? id with
      | none =>
          have hgetE : heap[id]? = none := by
            rw [← List.get?_eq_getElem?]
            exact hget
          have heq : mutFuel heap (n + 1) id = heap := by
            simp [mutFuel, hgetE]
          rw [heq]
          exact ⟨fun i hi => rfl, hF⟩
      | some nd =>
          have hgetE : heap[id]? = some nd := by
            rw [← List.get?_eq_getElem?]
            exact hget
          have heq : mutFuel heap (n + 1) id =
              nd.kids.foldl (fun h k => mutFuel h n k) (heap.set id (setNorm nd)) := by
            simp [mutFuel, hgetE]
          rw [heq]
          have hkids : ∀ k ∈ nd.kids, L ≤ k := hF id nd hid hget
          have hFset : FreshClosed L (heap.set id (setNorm nd)) := by
            intro j m hj hget2
            by_cases hji : id = j
            · subst hji
              rw [List.get?_set_eq, hget] at hget2
              have hmk : setNorm nd = m := by simpa using hget2
              subst hmk
              rw [setNorm_kids]
              exact hF id nd hj hget
            · rw [List.get?_set_ne _ _ hji] at hget2
              exact hF j m hj hget2
          have hsetframe : ∀ i, i < L → (heap.set id (setNorm nd)).get? i = heap.get? i := by
            intro i hi
            exact List.get?_set_ne _ _ (by omega)
          have aux : ∀ (ks : List Nat) (heap' : Store), FreshClosed L heap' →
              (∀ k ∈ ks, L ≤ k) →
              (∀ i, i < L →
                (ks.foldl (fun h k => mutFuel h n k) heap').get? i = heap'.get? i) ∧
              FreshClosed L (ks.foldl (fun h k => mutFuel h n k) heap') := by
            intro ks
            induction ks with
            | nil =>
                intro heap' hF2 hks
                exact ⟨fun i hi => rfl, hF2⟩
            | cons k ks ihk =>
                intro heap' hF2 hks
                simp only [List.foldl_cons]
                obtain ⟨hfr, hFm⟩ := ih L heap' k hF2 (hks k (List.mem_cons_self _ _))
                obtain ⟨hfr2, hFm2⟩ :=
                  ihk (mutFuel heap' n k) hFm (fun k2 hk2 => hks k2 (List.mem_cons_of_mem _ hk2))
                exact ⟨fun i hi => (hfr2 i hi).trans (hfr i hi), hFm2⟩
          obtain ⟨hfold, hFfold⟩ := aux nd.kids (heap.set id (setNorm nd)) hFset hkids
          exact ⟨fun i hi => (hfold i hi).trans (hsetframe i hi), hFfold⟩

/-! ## Concrete runs used by the counterexamples and witnesses -/

/-- Array-spine construction helper. -/
def lst (l : List JNode) : JNode := l.foldr .jcons .jnil

/-- The tree of `function add(a,b){return a+b;}`. -/
def addFn : JNode :=
  .funcDecl (.ident "add") (lst [.ident "a", .ident "b"])
    (.block (lst [.ret (.binop "+" (.ident "a") (.ident "b"))]))

/-- The rendered text of `addFn` (also the source text of the demo files). -/
def addText : String := "function add(a,b)\x7breturn a+b;\x7d"

/-- Parser table for the demo: the file text (and the extracted function's
rendered text, which is the same string) parses to the program wrapping
`addFn`, as the Babel parser would. -/
def demoParse : Parser := lookupTbl [(addText, .program (lst [addFn]))]

/-- Every demo file holds the same source text. -/
def demoMap : String → String := fun _ => addText

/-- File map for the partial-failure scenario: `b.ts` holds unparsable
text, every other file the valid demo text. -/
def badMap : String → String := fun f => if f = "b.ts" then "function (" else addText

/-- Canonical text of `addFn`. -/
def normAddText : String :=
  "function placeholder(placeholder,placeholder)\x7breturn placeholder+placeholder;\x7d"

/-- `function f(a){return a+n;}` for a numeric literal `n`. -/
def numFn (n : Int) : JNode :=
  .funcDecl (.ident "f") (lst [.ident "a"])
    (.block (lst [.ret (.binop "+" (.ident "a") (.numLit n))]))

/-- Rendered texts of `numFn 1` and `numFn 2`. -/
def numText1 : String := "function f(a)\x7breturn a+1;\x7d"

def numText2 : String := "function f(a)\x7breturn a+2;\x7d"

/-- Parser table for the numeric-literal pair. -/
def numParse : Parser :=
  lookupTbl [(numText1, .program (lst [numFn 1])), (numText2, .program (lst [numFn 2]))]

def numMap : String → String := fun f => if f = "x.ts" then numText1 else numText2

/-- `function f(a){return a+"hello";}`. -/
def strFnA : JNode :=
  .funcDecl (.ident "f") (lst [.ident "a"])
    (.block (lst [.ret (.binop "+" (.ident "a") (.strLit "hello"))]))

/-- `function g(b){return b+"world";}` — `strFnA` under the renaming
`f↦g, a↦b` and the string substitution `hello↦world`. -/
def strFnB : JNode :=
  .funcDecl (.ident "g") (lst [.ident "b"])
    (.block (lst [.ret (.binop "+" (.ident "b") (.strLit "world"))]))

def strTextA : String := "function f(a)\x7breturn a+\x22hello\x22;\x7d"

def strTextB : String := "function g(b)\x7breturn b+\x22world\x22;\x7d"

def strParse : Parser :=
  lookupTbl [(strTextA, .program (lst [strFnA])), (strTextB, .program (lst [strFnB]))]

def strMap : String → String := fun f => if f = "x.ts" then strTextA else strTextB

/-- Shared canonical text of `strFnA` and `strFnB`. -/
def strCanon : String :=
  "function placeholder(placeholder)\x7breturn placeholder+\x22placeholder\x22;\x7d"

/-- The identifier renaming `f↦g, a↦b`. -/
def renameFG : String → String := fun s => if s = "f" then "g" else if s = "a" then "b" else s

/-- The string-literal substitution `hello↦world`. -/
def substHW : String → String := fun s => if s = "hello" then "world" else s

/-- A function whose body holds a malformed template literal (`quasis` is a
truthy array-like object without `forEach`) with the identifier `secret`
inside its interpolation. -/
def badFn : JNode :=
  .funcDecl (.ident "f") .jnil
    (.block (lst [.ret (.templateBad (lst [.quasi "hello" "hello", .quasi "world" "world"])
      (lst [.ident "secret"]))]))

def badText : String := "function f()\x7breturn `hello$\x7bsecret\x7dworld`;\x7d"

/-- The partially normalized canonical text of `badFn`: the function name
was erased, but the quasi values and the interpolated identifier `secret`
survive untouched. -/
def badCanon : String := "function placeholder()\x7breturn `hello$\x7bsecret\x7dworld`;\x7d"

def badParse : Parser := lookupTbl [(badText, .program (lst [badFn]))]

def badFileMap : String → String := fun _ => badText

/-- `function s(a){return a+b;}` with a chosen name. -/
def fnNamed (s : String) : JNode :=
  .funcDecl (.ident s) (lst [.ident "a"])
    (.block (lst [.ret (.binop "+" (.ident "a") (.ident "b"))]))

def progA : JNode := .program (lst [fnNamed "s", fnNamed "p"])

def progB : JNode := .program (lst [fnNamed "r", fnNamed "q"])

def textA : String := "function s(a)\x7breturn a+b;\x7dfunction p(a)\x7breturn a+b;\x7d"

def textB : String := "function r(a)\x7breturn a+b;\x7dfunction q(a)\x7breturn a+b;\x7d"

def parse7 : Parser := lookupTbl [(textA, progA), (textB, progB)]

def map7 : String → String := fun f => if f = "a.ts" then textA else textB

def c7S : String := "function s(a)\x7breturn a+b;\x7d"

def c7P : String := "function p(a)\x7breturn a+b;\x7d"

def c7R : String := "function r(a)\x7breturn a+b;\x7d"

def c7Q : String := "function q(a)\x7breturn a+b;\x7d"

/-- The full output of the near-duplicate run on `a.ts`/`b.ts`: every pair
of the four functions scores `21/23 ≥ 4/5`, yet the pair (`c7P`, `c7Q`)
appears nowhere — its dedup key was consumed in both orientations by
earlier pairs. -/
def c7expected : List NearRes :=
  [⟨c7S, "a.ts", [⟨c7P, mkRat 21 23, ["a.ts"]⟩, ⟨c7R, mkRat 21 23, ["b.ts"]⟩]⟩,
   ⟨c7P, "a.ts", [⟨c7S, mkRat 21 23, ["a.ts"]⟩, ⟨c7R, mkRat 21 23, ["b.ts"]⟩]⟩,
   ⟨c7R, "b.ts", [⟨c7S, mkRat 21 23, ["a.ts"]⟩, ⟨c7Q, mkRat 21 23, ["b.ts"]⟩]⟩,
   ⟨c7Q, "b.ts", [⟨c7S, mkRat 21 23, ["a.ts"]⟩, ⟨c7R, mkRat 21 23, ["b.ts"]⟩]⟩]

/-- Checks that no result entry pairs `c7P` with `c7Q` in either
orientation. -/
def c7NoPQ (rs : List NearRes) : Bool :=
  rs.all (fun r =>
    !(r.function == c7P && r.«matches».any (fun m => m.function == c7Q)) &&
    !(r.function == c7Q && r.«matches».any (fun m => m.function == c7P)))

/-- A two-element size bucket whose pair scores exactly `4/5`. -/
def g7 : List FnOcc := [⟨"abcdef", "A"⟩, ⟨"abcdeg", "B"⟩]

/-- A one-node heap: a single identifier object. -/
def st10 : Store := [⟨"Identifier", "x", "", []⟩]

/-! ## Run-level parse lemmas for the partial-failure claim -/

lemma exactRun_parses (parse : Parser) (fileMap : String → String) :
    ∀ (files : List String) (hs res : List (String × ExactEntry)),
      files.foldlM (exactFile parse fileMap) hs = .ok res →
      ∀ f ∈ files, ∃ ast, parse (fileMap f) = .ok ast := by
  intro files
  induction files with
  | nil =>
      intro hs res hm f hf
      exact absurd hf (List.not_mem_nil f)
  | cons f0 fs ih =>
      intro hs res hm f hf
      simp only [List.foldlM_cons] at hm
      cases hstep : exactFile parse fileMap hs f0 with
      | error e =>
          rw [hstep] at hm
          simp only [exceptBind_err] at hm
          exact absurd hm (by simp)
      | ok hs1 =>
          rw [hstep] at hm
          simp only [exceptBind_ok] at hm
          rcases List.mem_cons.mp hf with heq | hmem
          · subst heq
            unfold exactFile at hstep
            cases hp : parse (fileMap f) with
            | error e =>
                rw [hp] at hstep
                simp only [exceptBind_err] at hstep
                exact absurd hstep (by simp)
            | ok ast => exact ⟨ast, rfl⟩
          · exact ih hs1 res hm f hmem

lemma nearRun_parses (parse : Parser) (fileMap : String → String) :
    ∀ (files : List String) (acc res : List FnOcc),
      files.foldlM (nearExtract parse fileMap) acc = .ok res →
      ∀ f ∈ files, ∃ ast, parse (fileMap f) = .ok ast := by
  intro files
  induction files with
  | nil =>
      intro acc res hm f hf
      exact absurd hf (List.not_mem_nil f)
  | cons f0 fs ih =>
      intro acc res hm f hf
      simp only [List.foldlM_cons] at hm
      cases hstep : nearExtract parse fileMap acc f0 with
      | error e =>
          rw [hstep] at hm
          simp only [exceptBind_err] at hm
          exact absurd hm (by simp)
      | ok acc1 =>
          rw [hstep] at hm
          simp only [exceptBind_ok] at hm
          rcases List.mem_cons.mp hf with heq | hmem
          · subst heq
            unfold nearExtract at hstep
            cases hp : parse (fileMap f) with
            | error e =>
                rw [hp] at hstep
                simp only [exceptBind_err] at hstep
                exact absurd hstep (by simp)
            | ok ast => exact ⟨ast, rfl⟩
          · exact ih acc1 res hm f hmem

lemma structRun_parses (parse : Parser) (fileMap : String → String) :
    ∀ (files : List String) (m res : List (String × StructGroup)),
      files.foldlM (structFile parse fileMap) m = .ok res →
      ∀ f ∈ files, ∃ ast, parse (fileMap f) = .ok ast := by
  intro files
  induction files with
  | nil =>
      intro m res hm f hf
      exact absurd hf (List.not_mem_nil f)
  | cons f0 fs ih =>
      intro m res hm f hf
      simp only [List.foldlM_cons] at hm
      cases hstep : structFile parse fileMap m f0 with
      | error e =>
          rw [hstep] at hm
          simp only [exceptBind_err] at hm
          exact absurd hm (by simp)
      | ok m1 =>
          rw [hstep] at hm
          simp only [exceptBind_ok] at hm
          rcases List.mem_cons.mp hf with heq | hmem
          · subst heq
            unfold structFile at hstep
            cases hp : parse (fileMap f) with
            | error e =>
                rw [hp] at hstep
                simp only [exceptBind_err] at hstep
                exact absurd hstep (by simp)
            | ok ast => exact ⟨ast, rfl⟩
          · exact ih m1 res hm f hmem

/-! ## The claims -/

/-- Claim C1 (counterexample): with `a.ts` and `c.ts` holding the same valid
function and `b.ts` holding unparsable text, all three finders throw the
`ParseError` and return nothing, even though the duplicate group over
`a.ts`/`c.ts` is derivable (and is returned when the bad file is left out).
This falsifies the claim that a parse error in one file excludes only that
file. -/
theorem c1_counterexample :
    findExactDuplicates demoParse ["a.ts", "b.ts", "c.ts"] badMap = .error "ParseError" ∧
    findNearDuplicates demoParse ["a.ts", "b.ts", "c.ts"] badMap (mkRat 4 5) =
      .error "ParseError" ∧
    findStructuralDuplicates demoParse ["a.ts", "b.ts", "c.ts"] badMap = .error "ParseError" ∧
    findExactDuplicates demoParse ["a.ts", "c.ts"] badMap = .ok [⟨addText, ["a.ts", "c.ts"]⟩] :=
  ⟨by decide, by decide, by decide, by decide⟩

/-- Claim C1 (amended): a file-level parse error is not scoped — it
propagates out of each of the three finders, so a finder returns
successfully only if every file of the run parsed. -/
theorem c1_file_error_aborts_run :
    (∀ (parse : Parser) (files : List String) (fileMap : String → String) (gs : List ExactGroup),
      findExactDuplicates parse files fileMap = .ok gs →
      ∀ f ∈ files, ∃ ast, parse (fileMap f) = .ok ast) ∧
    (∀ (parse : Parser) (files : List String) (fileMap : String → String) (threshold : ℚ)
      (rs : List NearRes),
      findNearDuplicates parse files fileMap threshold = .ok rs →
      ∀ f ∈ files, ∃ ast, parse (fileMap f) = .ok ast) ∧
    (∀ (parse : Parser) (files : List String) (fileMap : String → String) (gs : List StructGroup),
      findStructuralDuplicates parse files fileMap = .ok gs →
      ∀ f ∈ files, ∃ ast, parse (fileMap f) = .ok ast) := by
  refine ⟨?_, ?_, ?_⟩
  · intro parse files fileMap gs hrun
    unfold findExactDuplicates at hrun
    cases hfold : files.foldlM (exactFile parse fileMap) [] with
    | error e =>
        rw [hfold] at hrun
        simp only [exceptMap_err] at hrun
        exact absurd hrun (by simp)
    | ok hs => exact exactRun_parses parse fileMap files [] hs hfold
  · intro parse files fileMap threshold rs hrun
    unfold findNearDuplicates at hrun
    cases hfold : files.foldlM (nearExtract parse fileMap) [] with
    | error e =>
        rw [hfold] at hrun
        simp only [exceptBind_err] at hrun
        exact absurd hrun (by simp)
    | ok fns => exact nearRun_parses parse fileMap files [] fns hfold
  · intro parse files fileMap gs hrun
    unfold findStructuralDuplicates at hrun
    cases hfold : files.foldlM (structFile parse fileMap) [] with
    | error e =>
        rw [hfold] at hrun
        simp only [exceptMap_err] at hrun
        exact absurd hrun (by simp)
    | ok m => exact structRun_parses parse fileMap files [] m hfold

/-- Claim C1 (witness): the amended theorem applied to the successful
two-file run. -/
theorem c1_witness : ∃ ast, demoParse (badMap "a.ts") = .ok ast :=
  c1_file_error_aborts_run.1 demoParse ["a.ts", "c.ts"] badMap
    [⟨addText, ["a.ts", "c.ts"]⟩] (by decide) "a.ts" (by decide)

/-- Claim C2 (counterexample): the walker has no depth bound and no visited
set, so on a self-referential object it never returns: the walk runs out of
every finite recursion depth. -/
theorem c2_counterexample : divergesAt cyclicStore 0 :=
  fun fuel => cyclic_diverges fuel

/-- Claim C2 (amended): on every finite tree the walk completes — fuel one
more than the tree height suffices, returning exactly the total
extraction. -/
theorem c2_walker_completes_on_trees :
    ∀ t : JNode, extractFuelJ (height t + 1) t = some (extractFunctions t) :=
  fun t => extractFuelJ_complete (height t + 1) t (Nat.lt_succ_self _)

/-- Claim C3 (counterexample): two functions that differ only in a numeric
literal (`return a+1` vs `return a+2`) keep different canonical texts —
Babel tags numbers `NumericLiteral`, which the canonicalizer's
`Literal`/`StringLiteral` cases do not match — so they hash apart and the
structural finder returns no group for them. -/
theorem c3_counterexample :
    normalizeAST (.program (lst [numFn 1])) ≠ normalizeAST (.program (lst [numFn 2])) ∧
    hashCode (normalizeAST (.program (lst [numFn 1]))) ≠
      hashCode (normalizeAST (.program (lst [numFn 2]))) ∧
    findStructuralDuplicates numParse ["x.ts", "y.ts"] numMap = .ok [] :=
  ⟨by decide, by decide, by decide⟩

/-- Claim C3 (amended): consistent identifier renaming together with string
and template literal substitution never changes the canonical text or its
hash; concretely, `strFnB` is exactly such a reshaping of `strFnA`, and the
two land in one structural duplicate group. -/
theorem c3_canonicalization_invariance :
    (∀ (ρ σ θ : String → String) (t : JNode),
      normalizeAST (reshape ρ σ θ t) = normalizeAST t ∧
      hashCode (normalizeAST (reshape ρ σ θ t)) = hashCode (normalizeAST t)) ∧
    reshape renameFG substHW (fun s => s) strFnA = strFnB ∧
    findStructuralDuplicates strParse ["x.ts", "y.ts"] strMap =
      .ok [⟨strCanon, [⟨"x.ts", strTextA⟩, ⟨"y.ts", strTextB⟩]⟩] := by
  refine ⟨?_, by decide, by decide⟩
  intro ρ σ θ t
  have h := (reshape_norm ρ σ θ t).1
  constructor
  · show genNode (normTraverse (reshape ρ σ θ t)) = genNode (normTraverse t)
    rw [h]
  · show hashCode (genNode (normTraverse (reshape ρ σ θ t))) =
      hashCode (genNode (normTraverse t))
    rw [h]

/-- Claim C5: in every successful exact-duplicate run, each returned group
lists a file at most once (the `includes` guard) and lists at least two
distinct files (the `length > 1` filter). -/
theorem c5_exact_groups_distinct_files :
    ∀ (parse : Parser) (files : List String) (fileMap : String → String) (gs : List ExactGroup),
      findExactDuplicates parse files fileMap = .ok gs →
      ∀ g ∈ gs, g.files.Nodup ∧ 2 ≤ g.files.length := by
  intro parse files fileMap gs hrun g hg
  unfold findExactDuplicates at hrun
  cases hfold : files.foldlM (exactFile parse fileMap) [] with
  | error e =>
      rw [hfold] at hrun
      simp only [exceptMap_err] at hrun
      exact absurd hrun (by simp)
  | ok hs =>
      rw [hfold] at hrun
      simp only [exceptMap_ok, Except.ok.injEq] at hrun
      subst hrun
      have hinv : ExactInv hs :=
        exactRun_inv parse fileMap files [] hs (fun p hp => absurd hp (List.not_mem_nil p)) hfold
      obtain ⟨e, he, hge⟩ := List.mem_map.mp hg
      obtain ⟨he2, hlen⟩ := List.mem_filter.mp he
      obtain ⟨p, hp, hpe⟩ := List.mem_map.mp he2
      subst hge
      refine ⟨by rw [← hpe]; exact hinv p hp, ?_⟩
      simp only [decide_eq_true_eq] at hlen
      show 2 ≤ e.files.length
      omega

/-- Claim C5 (witness): the theorem applied to the concrete two-file run. -/
theorem c5_witness :
    (⟨addText, ["a.ts", "c.ts"]⟩ : ExactGroup).files.Nodup ∧
    2 ≤ (⟨addText, ["a.ts", "c.ts"]⟩ : ExactGroup).files.length :=
  c5_exact_groups_distinct_files demoParse ["a.ts", "c.ts"] demoMap
    [⟨addText, ["a.ts", "c.ts"]⟩] (by decide) ⟨addText, ["a.ts", "c.ts"]⟩ (by decide)

/-- Claim C4 (counterexample): with a malformed template literal in the
body (the canonicalizer's `n.quasis.forEach` throws, the per-node `catch`
swallows the error, and the subtree below is never visited), the function's
canonical text is only partially normalized — the function name became
`placeholder` but the quasi values and the interpolated identifier `secret`
survive — and that partial text IS hashed, used as the grouping key, and
returned as a group over both files.  This falsifies the all-or-nothing
policy. -/
theorem c4_counterexample :
    findStructuralDuplicates badParse ["x.ts", "y.ts"] badFileMap =
      .ok [⟨badCanon, [⟨"x.ts", badText⟩, ⟨"y.ts", badText⟩]⟩] ∧
    normTraverse (.templateBad (lst [.quasi "hello" "hello", .quasi "world" "world"])
        (lst [.ident "secret"])) =
      .templateBad (lst [.quasi "hello" "hello", .quasi "world" "world"])
        (lst [.ident "secret"]) ∧
    badCanon ≠ "" :=
  ⟨by decide, by decide, by decide⟩

/-- Claim C4 (amended): a function is excluded from the structural groups
exactly at the whole-function granularity the code does implement — every
occurrence recorded in a returned group re-parsed successfully and
canonicalized to a non-empty text hashing to the group's key (so a
per-function re-parse failure or an empty canonicalization excludes the
occurrence); per-node failures, however, are swallowed, as the
counterexample shows. -/
theorem c4_grouped_occurrences_fully_processed :
    ∀ (parse : Parser) (files : List String) (fileMap : String → String)
      (gs : List StructGroup),
      findStructuralDuplicates parse files fileMap = .ok gs →
      ∀ g ∈ gs, ∀ o ∈ g.originalFunctions,
        ∃ ast, parse o.function = .ok ast ∧ normalizeAST ast ≠ "" ∧
          hashCode (normalizeAST ast) = hashCode g.normalizedFunction := by
  intro parse files fileMap gs hrun g hg o ho
  unfold findStructuralDuplicates at hrun
  cases hfold : files.foldlM (structFile parse fileMap) [] with
  | error e =>
      rw [hfold] at hrun
      simp only [exceptMap_err] at hrun
      exact absurd hrun (by simp)
  | ok m =>
      rw [hfold] at hrun
      simp only [exceptMap_ok, Except.ok.injEq] at hrun
      subst hrun
      have hinv0 : StructInv [] [] :=
        ⟨fun p hp => absurd hp (List.not_mem_nil p), fun c hc => absurd hc (List.not_mem_nil c)⟩
      obtain ⟨cs, hcs, hinv⟩ := structRun_inv parse fileMap files [] [] hinv0 m hfold
      have hprov : StructProv parse cs :=
        structProv_run parse fileMap files [] cs hcs (fun c hc => absurd hc (List.not_mem_nil c))
      obtain ⟨hmem, _⟩ := List.mem_filter.mp hg
      obtain ⟨p, hp, hpg⟩ := List.mem_map.mp hmem
      subst hpg
      obtain ⟨hkey, hfg⟩ := hinv.1 p hp
      rw [hfg] at ho
      obtain ⟨c, hcf, hco⟩ := List.mem_map.mp ho
      obtain ⟨hccs, hchash⟩ := List.mem_filter.mp hcf
      obtain ⟨ast, hpok, hnorm, hne⟩ := hprov c hccs
      subst hco
      refine ⟨ast, hpok, by rw [hnorm]; exact hne, ?_⟩
      rw [hnorm]
      simp only [decide_eq_true_eq] at hchash
      rw [hchash, ← hkey]

/-- Claim C4 (witness): the amended theorem applied to the successful
two-file structural run on the demo function. -/
theorem c4_witness :
    ∃ ast, demoParse addText = .ok ast ∧ normalizeAST ast ≠ "" ∧
      hashCode (normalizeAST ast) = hashCode normAddText :=
  c4_grouped_occurrences_fully_processed demoParse ["a.ts", "c.ts"] demoMap
    [⟨normAddText, [⟨"a.ts", addText⟩, ⟨"c.ts", addText⟩]⟩] (by decide)
    ⟨normAddText, [⟨"a.ts", addText⟩, ⟨"c.ts", addText⟩]⟩ (by decide)
    ⟨"a.ts", addText⟩ (by decide)

/-- Claim C6: a successful structural run retains a group exactly when at
least two occurrences (counted with repetition, even within one file)
canonicalize to its hash; each retained group carries exactly — hence
every one of — the contributing `(file, originalCode)` pairs of its hash,
in processing order. -/
theorem c6_structural_group_retention :
    ∀ (parse : Parser) (files : List String) (fileMap : String → String)
      (gs : List StructGroup) (cs : List (String × OrigFn)),
      findStructuralDuplicates parse files fileMap = .ok gs →
      structOccurrencesSpec parse files fileMap = .ok cs →
      (∀ g ∈ gs, 2 ≤ g.originalFunctions.length) ∧
      (∀ g ∈ gs, g.originalFunctions =
        (cs.filter (fun c => hashCode c.1 = hashCode g.normalizedFunction)).map Prod.snd) ∧
      (∀ c ∈ cs, 2 ≤ (cs.filter (fun c2 => hashCode c2.1 = hashCode c.1)).length →
        ∃ g ∈ gs, c.2 ∈ g.originalFunctions) ∧
      (∀ c ∈ cs, (cs.filter (fun c2 => hashCode c2.1 = hashCode c.1)).length < 2 →
        ∀ g ∈ gs, hashCode g.normalizedFunction ≠ hashCode c.1) := by
  intro parse files fileMap gs cs hrun hspec
  unfold findStructuralDuplicates at hrun
  cases hfold : files.foldlM (structFile parse fileMap) [] with
  | error e =>
      rw [hfold] at hrun
      simp only [exceptMap_err] at hrun
      exact absurd hrun (by simp)
  | ok m =>
      rw [hfold] at hrun
      simp only [exceptMap_ok, Except.ok.injEq] at hrun
      subst hrun
      have hinv0 : StructInv [] [] :=
        ⟨fun p hp => absurd hp (List.not_mem_nil p), fun c hc => absurd hc (List.not_mem_nil c)⟩
      obtain ⟨cs2, hcs2, hinv⟩ := structRun_inv parse fileMap files [] [] hinv0 m hfold
      have hcc : cs = cs2 := Except.ok.inj (hspec.symm.trans hcs2)
      subst hcc
      obtain ⟨hinv1, hinv2⟩ := hinv
      refine ⟨?_, ?_, ?_, ?_⟩
      · intro g hg
        obtain ⟨_, hlen⟩ := List.mem_filter.mp hg
        simp only [decide_eq_true_eq] at hlen
        omega
      · intro g hg
        obtain ⟨hmem, _⟩ := List.mem_filter.mp hg
        obtain ⟨p, hp, hpg⟩ := List.mem_map.mp hmem
        subst hpg
        have h1 := hinv1 p hp
        rw [← h1.1]
        exact h1.2
      · intro c hc hcount
        obtain ⟨p, hp, hkey⟩ := hinv2 c hc
        have h1 := hinv1 p hp
        have hfilter_eq : cs.filter (fun c2 => hashCode c2.1 = p.1) =
            cs.filter (fun c2 => hashCode c2.1 = hashCode c.1) := by
          rw [hkey]
        have hlen : 1 < p.2.originalFunctions.length := by
          rw [h1.2, hfilter_eq, List.length_map]
          omega
        refine ⟨p.2, ?_, ?_⟩
        · exact List.mem_filter.mpr ⟨List.mem_map.mpr ⟨p, hp, rfl⟩,
            by simp only [decide_eq_true_eq]; exact hlen⟩
        · rw [h1.2]
          exact List.mem_map.mpr ⟨c, List.mem_filter.mpr ⟨hc,
            by simp only [decide_eq_true_eq]; exact hkey.symm⟩, rfl⟩
      · intro c hc hcount g hg heq
        obtain ⟨hmem, hlen⟩ := List.mem_filter.mp hg
        obtain ⟨p, hp, hpg⟩ := List.mem_map.mp hmem
        subst hpg
        have h1 := hinv1 p hp
        simp only [decide_eq_true_eq] at hlen
        have hfilter_eq : cs.filter (fun c2 => hashCode c2.1 = p.1) =
            cs.filter (fun c2 => hashCode c2.1 = hashCode c.1) := by
          rw [h1.1, heq]
        have : 1 < (cs.filter (fun c2 => hashCode c2.1 = hashCode c.1)).length := by
          rw [← hfilter_eq]
          have h2 := h1.2
          rw [h2, List.length_map] at hlen
          exact hlen
        omega

/-- Claim C6 (witness): the theorem applied to the concrete two-file
structural run. -/
theorem c6_witness :
    2 ≤ (⟨normAddText, [⟨"a.ts", addText⟩, ⟨"c.ts", addText⟩]⟩ :
      StructGroup).originalFunctions.length :=
  (c6_structural_group_retention demoParse ["a.ts", "c.ts"] demoMap
    [⟨normAddText, [⟨"a.ts", addText⟩, ⟨"c.ts", addText⟩]⟩]
    [(normAddText, ⟨"a.ts", addText⟩), (normAddText, ⟨"c.ts", addText⟩)]
    (by decide) (by decide)).1
    ⟨normAddText, [⟨"a.ts", addText⟩, ⟨"c.ts", addText⟩]⟩ (by decide)

/-- Claim C7 (counterexample): in the four-function run, the within-bucket
pair (`c7P`, `c7Q`) scores `21/23`, at least the threshold `4/5`, yet it is
reported in neither orientation — its dedup key was consumed in both
directions by earlier pairs (`c7P`/`c7R` and `c7Q`/`c7S`).  This falsifies
the "if" direction of the claimed equivalence. -/
theorem c7_counterexample :
    mkRat 4 5 ≤ compareTwoStrings c7P c7Q ∧
    c7P.length / 100 = c7Q.length / 100 ∧
    findNearDuplicates parse7 ["a.ts", "b.ts"] map7 (mkRat 4 5) = .ok c7expected ∧
    c7NoPQ c7expected = true :=
  ⟨by decide, by decide, by decide, by decide⟩

/-- Claim C7 (amended): every reported match scores at least the threshold
(a pair strictly below is never reported), and a compared pair whose score
reaches the threshold — including exactly the threshold — is reported
provided its dedup key is still fresh. -/
theorem c7_threshold_semantics :
    (∀ (parse : Parser) (files : List String) (fileMap : String → String) (threshold : ℚ)
      (rs : List NearRes),
      findNearDuplicates parse files fileMap threshold = .ok rs →
      ∀ r ∈ rs, ∀ m ∈ r.«matches», threshold ≤ m.similarity) ∧
    (∀ (g : List FnOcc) (i j : Nat) (threshold : ℚ) (js : List Nat) (seen : List String),
      i ≠ j →
      threshold ≤ compareTwoStrings (g.getD i ⟨"", ""⟩).code (g.getD j ⟨"", ""⟩).code →
      pairKey (g.getD i ⟨"", ""⟩).file (g.getD j ⟨"", ""⟩).file
        (g.getD i ⟨"", ""⟩).code ∉ seen →
      (innerLoop g i threshold (j :: js) seen).1 =
        ⟨(g.getD j ⟨"", ""⟩).code,
          compareTwoStrings (g.getD i ⟨"", ""⟩).code (g.getD j ⟨"", ""⟩).code,
          [(g.getD j ⟨"", ""⟩).file]⟩ ::
        (innerLoop g i threshold js
          (pairKey (g.getD i ⟨"", ""⟩).file (g.getD j ⟨"", ""⟩).file
            (g.getD i ⟨"", ""⟩).code :: seen)).1) := by
  constructor
  · intro parse files fileMap threshold rs hrun r hr m hm
    unfold findNearDuplicates at hrun
    cases hfold : files.foldlM (nearExtract parse fileMap) [] with
    | error e =>
        rw [hfold] at hrun
        simp only [exceptBind_err] at hrun
        exact absurd hrun (by simp)
    | ok fns =>
        rw [hfold] at hrun
        simp only [exceptBind_ok, exceptPure, Except.ok.injEq] at hrun
        subst hrun
        rcases bucketFold_sound threshold (groupFunctionsBySize fns) ([], []) r hr with
          habs | ⟨p, hp, seen, hout⟩
        · exact absurd habs (List.not_mem_nil r)
        · obtain ⟨i, hi, _, _, hms⟩ :=
            outerLoop_sound p.2 threshold (List.range p.2.length) seen r hout
          obtain ⟨j, _, _, _, _, _, hthr⟩ := hms m hm
          exact hthr
  · intro g i j threshold js seen hij hsim hfresh
    exact innerLoop_emits g i j threshold js seen hij hsim hfresh

/-- Claim C7 (witness): the head-emission part applied to a concrete bucket
whose pair scores exactly the threshold `4/5` — the boundary pair is
emitted. -/
theorem c7_witness :
    (innerLoop g7 0 (mkRat 4 5) [1] []).1 =
      [⟨"abcdeg", compareTwoStrings "abcdef" "abcdeg", ["B"]⟩] :=
  (c7_threshold_semantics.2 g7 0 1 (mkRat 4 5) [] []
    (by decide) (by decide) (by decide)).trans (by decide)

/-- Claim C8: across a whole successful near-duplicate run, the canonical
dedup keys of all emitted matches — sorted file pair joined with the anchor
function's text — are pairwise distinct: once a key is recorded in
`seenPairs`, no match is ever emitted for it again, in either
orientation. -/
theorem c8_dedup_keys_unique :
    ∀ (parse : Parser) (files : List String) (fileMap : String → String) (threshold : ℚ)
      (rs : List NearRes),
      findNearDuplicates parse files fileMap threshold = .ok rs →
      (matchKeys rs).Nodup := by
  intro parse files fileMap threshold rs hrun
  unfold findNearDuplicates at hrun
  cases hfold : files.foldlM (nearExtract parse fileMap) [] with
  | error e =>
      rw [hfold] at hrun
      simp only [exceptBind_err] at hrun
      exact absurd hrun (by simp)
  | ok fns =>
      rw [hfold] at hrun
      simp only [exceptBind_ok, exceptPure, Except.ok.injEq] at hrun
      subst hrun
      have hinv : KeysInv ([], []) := ⟨by simp [matchKeys], by simp [matchKeys]⟩
      exact (bucketFold_keysInv threshold (groupFunctionsBySize fns) ([], []) hinv).1

/-- Claim C8 (witness): the theorem applied to the concrete two-file near
run. -/
theorem c8_witness :
    (matchKeys [⟨addText, "a.ts", [⟨addText, 1, ["c.ts"]⟩]⟩]).Nodup :=
  c8_dedup_keys_unique demoParse ["a.ts", "c.ts"] demoMap (mkRat 4 5)
    [⟨addText, "a.ts", [⟨addText, 1, ["c.ts"]⟩]⟩] (by decide)

/-- Claim C9: in every successful near-duplicate run, each result is
anchored at an index `i` of its size bucket and each of its matches is the
record at some index `j ≠ i` of the same bucket — the inner loop's
`i !== j` guard means a record is never compared (or matched) with
itself. -/
theorem c9_no_self_comparison :
    ∀ (parse : Parser) (files : List String) (fileMap : String → String) (threshold : ℚ)
      (fns : List FnOcc) (rs : List NearRes),
      files.foldlM (nearExtract parse fileMap) [] = .ok fns →
      findNearDuplicates parse files fileMap threshold = .ok rs →
      ∀ r ∈ rs, ∃ p ∈ groupFunctionsBySize fns, ∃ i, i < p.2.length ∧
        r.function = (p.2.getD i ⟨"", ""⟩).code ∧ r.file = (p.2.getD i ⟨"", ""⟩).file ∧
        ∀ m ∈ r.«matches», ∃ j, j < p.2.length ∧ j ≠ i ∧
          m.function = (p.2.getD j ⟨"", ""⟩).code ∧
          m.files = [(p.2.getD j ⟨"", ""⟩).file] := by
  intro parse files fileMap threshold fns rs hext hrun
  unfold findNearDuplicates at hrun
  rw [hext] at hrun
  simp only [exceptBind_ok, exceptPure, Except.ok.injEq] at hrun
  subst hrun
  intro r hr
  rcases bucketFold_sound threshold (groupFunctionsBySize fns) ([], []) r hr with
    habs | ⟨p, hp, seen, hout⟩
  · exact absurd habs (List.not_mem_nil r)
  · obtain ⟨i, hi, hrf, hrfile, hms⟩ :=
      outerLoop_sound p.2 threshold (List.range p.2.length) seen r hout
    refine ⟨p, hp, i, List.mem_range.mp hi, hrf, hrfile, ?_⟩
    intro m hm
    obtain ⟨j, hjlt, hji, hmf, hmfl, _, _⟩ := hms m hm
    exact ⟨j, hjlt, hji, hmf, hmfl⟩

/-- Claim C9 (witness): the theorem applied to the concrete two-file near
run. -/
theorem c9_witness :
    ∃ p ∈ groupFunctionsBySize [⟨addText, "a.ts"⟩, ⟨addText, "c.ts"⟩], ∃ i, i < p.2.length ∧
      (⟨addText, "a.ts", [⟨addText, 1, ["c.ts"]⟩]⟩ : NearRes).function =
        (p.2.getD i ⟨"", ""⟩).code ∧
      (⟨addText, "a.ts", [⟨addText, 1, ["c.ts"]⟩]⟩ : NearRes).file =
        (p.2.getD i ⟨"", ""⟩).file ∧
      ∀ m ∈ (⟨addText, "a.ts", [⟨addText, 1, ["c.ts"]⟩]⟩ : NearRes).«matches»,
        ∃ j, j < p.2.length ∧ j ≠ i ∧
          m.function = (p.2.getD j ⟨"", ""⟩).code ∧
          m.files = [(p.2.getD j ⟨"", ""⟩).file] :=
  c9_no_self_comparison demoParse ["a.ts", "c.ts"] demoMap (mkRat 4 5)
    [⟨addText, "a.ts"⟩, ⟨addText, "c.ts"⟩]
    [⟨addText, "a.ts", [⟨addText, 1, ["c.ts"]⟩]⟩] (by decide) (by decide)
    ⟨addText, "a.ts", [⟨addText, 1, ["c.ts"]⟩]⟩ (List.mem_singleton.mpr rfl)

/-- Claim C10: the canonicalizer's mutation is confined to the fresh deep
clone — for every heap, clone depth, mutation depth and root, every index
that existed before the call still holds exactly its old node afterwards
(also when the clone throws and the heap is left untouched).  The finders
themselves only read `files` and `fileMap`, which the embedding keeps
pure. -/
theorem c10_canonicalizer_preserves_original_heap :
    ∀ (st : Store) (cloneDepth mutDepth root i : Nat),
      i < st.length →
      (normalizeClone st cloneDepth mutDepth root).get? i = st.get? i := by
  intro st cd md root i hi
  unfold normalizeClone
  cases hc : cloneFuel st cd root st with
  | none => rfl
  | some pr =>
      obtain ⟨heap, nid⟩ := pr
      have hF0 : FreshClosed st.length st := by
        intro j n hj hget
        have hnone : st.get? j = none := List.get?_len_le hj
        rw [hnone] at hget
        exact Option.noConfusion hget
      obtain ⟨⟨Δ, hΔ⟩, hnid, hclosed⟩ :=
        (clone_inv cd).1 st st.length root st heap nid (le_refl _) hF0 hc
      have hframe := (mutFuel_frame md st.length heap nid hclosed hnid).1 i hi
      show (mutFuel heap md nid).get? i = st.get? i
      rw [hframe, hΔ, get?_append_left st Δ i hi]

/-- Claim C10 (witness): on the one-identifier heap, cloning then mutating
leaves index `0` exactly as it was (the clone at index `1` is the node that
gets the placeholder). -/
theorem c10_witness : (normalizeClone st10 2 2 0).get? 0 = st10.get? 0 :=
  c10_canonicalizer_preserves_original_heap st10 2 2 0 0 (by decide)

end DupliFind
